import Mathlib

/-!
Shallow embedding of the two core algorithms of `src/task/11-katas-2-tasks.js`:
the permutation generator `getPermutations` (Heap's algorithm) and the
word-search `findStringInSnakingPuzzle`, together with proofs of the
specification claims about them.

JavaScript features are modelled explicitly:
* string / array indexing `s[i]` returns `undefined` out of bounds, modelled
  with `Option`;
* `===` on possibly-`undefined` values is `Option` equality
  (`undefined === undefined` is `true`);
* truthiness: `undefined` and `false` are falsy, an array is truthy (also when
  empty), a string is truthy iff nonempty;
* unbounded recursion is modelled with an explicit fuel parameter; a result of
  `none` means the fuel was exhausted.  The JS functions have no fuel, so a
  statement proved for every fuel value (or for every fuel at which the
  computation completes) is a statement about the JS program.
-/

/-! ### Permutation generator (`getPermutations`) -/

/-- One JS swap step `tmp = arr[a]; arr[a] = arr[b]; arr[b] = tmp`.
In the source both indices are always in range (`b < a = k-1 < arr.length`),
so the `getD` default is never read on reachable inputs. -/
def swapJS (arr : List Char) (a b : Nat) : List Char :=
  let tmp := arr.getD a 'a'
  let arr1 := arr.set a (arr.getD b 'a')
  arr1.set b tmp

/-- The loop `for (let i = 0; i < k - 1; i++) { ... generate(k-1, arr); }`
inside `generate`, iterating over the list of loop indices.  `g` is
`generate fuel (k-1)` and the state `(arr, output)` is threaded through. -/
def genIter (g : List Char → List String → Option (List Char × List String))
    (k : Int) : List Nat → List Char → List String →
    Option (List Char × List String)
  | [], arr, out => some (arr, out)
  | i :: is, arr, out =>
    let j : Nat := if k % 2 = 0 then i else 0
    match g (swapJS arr (k - 1).toNat j) out with
    | none => none
    | some (arr2, out2) => genIter g k is arr2 out2

/-- The inner recursive `generate(k, arr)` of `getPermutations`, with fuel.
The only base case in the source is `k === 1` (there is no `k <= 1` check),
faithfully kept here. -/
def generate : Nat → Int → List Char → List String →
    Option (List Char × List String)
  | 0, _, _, _ => none
  | fuel + 1, k, arr, output =>
    if k = 1 then
      some (arr, output ++ [String.mk arr])
    else
      match generate fuel (k - 1) arr output with
      | none => none
      | some (arr1, out1) =>
        genIter (generate fuel (k - 1)) k (List.range (k - 1).toNat) arr1 out1

/-- `getPermutations(chars)`: runs `generate(chars.length, [...chars])` on an
empty output array and yields the collected output strings in order. -/
def getPermutations (fuel : Nat) (chars : List Char) : Option (List String) :=
  match generate fuel (chars.length : Int) chars [] with
  | none => none
  | some (_, output) => some output

/-! ### Word search (`findStringInSnakingPuzzle`) -/

/-- The visited mask: a matrix of booleans, same shape as the puzzle. -/
abbrev Vis := List (List Bool)

/-- JS row access `xss[i]`: `undefined` (`none`) out of bounds. -/
def jsRow (xss : List (List α)) (i : Int) : Option (List α) :=
  if i < 0 then none else xss[i.toNat]?

/-- JS cell access `xss[i][j]` (assuming `xss[i]` is defined, else `none`). -/
def jsCell (xss : List (List α)) (i j : Int) : Option α :=
  match jsRow xss i with
  | none => none
  | some row => if j < 0 then none else row[j.toNat]?

/-- JS truthiness of `visited[i][j]`: `undefined` and `false` are falsy. -/
def truthyCell (o : Option Bool) : Bool := o.getD false

/-- JS string indexing `s[idx]`: `undefined` (`none`) out of bounds. -/
def jsCharAt (s : List Char) (idx : Int) : Option Char :=
  if idx < 0 then none else s[idx.toNat]?

/-- The assignment `vss[i][j] = b`.  In the source this assignment only ever
happens at in-bounds indices (the guard matched a real puzzle character
there); out of bounds we leave the matrix unchanged. -/
def setCell (vss : Vis) (i j : Int) (b : Bool) : Vis :=
  if i < 0 ∨ j < 0 then vss
  else
    match vss[i.toNat]? with
    | none => vss
    | some row => vss.set i.toNat (row.set j.toNat b)

/-- Truthiness of the row `puzzle[i]` (a JS string): truthy iff it exists and
is nonempty (the empty string is falsy). -/
def rowTruthy (puzzle : List (List Char)) (i : Int) : Bool :=
  match jsRow puzzle i with
  | none => false
  | some row => !row.isEmpty

/-- The guard `puzzle[i] && puzzle[i][j] === searchStr[index]`.  `===` on the
two possibly-`undefined` operands is `Option` equality. -/
def guardCond (puzzle : List (List Char)) (searchStr : List Char)
    (i j idx : Int) : Bool :=
  rowTruthy puzzle i && (jsCell puzzle i j == jsCharAt searchStr idx)

/-- The four exploration directions. -/
inductive Dir
  | up
  | down
  | left
  | right
deriving DecidableEq, Repr

/-- The cell a direction step moves to from `(i, j)`. -/
def dirPos (d : Dir) (i j : Int) : Int × Int :=
  match d with
  | .up => (i - 1, j)
  | .down => (i + 1, j)
  | .left => (i, j - 1)
  | .right => (i, j + 1)

/-- The guard in front of each recursive exploration call, on the current
visited mask: `visited[i-1] && !visited[i-1][j]` for up (an existing array row
is truthy even when empty), symmetrically for down, and `!visited[i][j-1]`,
`!visited[i][j+1]` for left/right. -/
def dirCond (vis : Vis) (d : Dir) (i j : Int) : Bool :=
  match d with
  | .up => (jsRow vis (i - 1)).isSome && !truthyCell (jsCell vis (i - 1) j)
  | .down => (jsRow vis (i + 1)).isSome && !truthyCell (jsCell vis (i + 1) j)
  | .left => !truthyCell (jsCell vis i (j - 1))
  | .right => !truthyCell (jsCell vis i (j + 1))

/-- Result of one `canFindStartedFrom` call: the returned boolean together
with the closure state `(index, visited)` at the moment of return. -/
abbrev CFRes := Bool × Int × Vis

/-- Direct transliteration of `canFindStartedFrom(i, j)`, with fuel.  The
mutable closure variables `index` and `visited` are threaded explicitly:
every recursive call receives the current state and returns the state it
leaves behind.  A direction whose guard is false leaves the state unchanged
(in JS, control just falls to the next `if`).  The fall-through path executes
`index--; visited[i][j] = false; return false`. -/
def canFind (puzzle : List (List Char)) (searchStr : List Char) :
    Nat → Int → Int → Int → Vis → Option CFRes
  | 0, _, _, _, _ => none
  | fuel + 1, i, j, index, visited =>
    if guardCond puzzle searchStr i j index then
      let idx1 := index + 1
      let vis1 := setCell visited i j true
      if idx1 = (searchStr.length : Int) then some (true, idx1, vis1)
      else
        match (if dirCond vis1 .up i j then
            canFind puzzle searchStr fuel (i - 1) j idx1 vis1
          else some (false, idx1, vis1)) with
        | none => none
        | some (true, a, v) => some (true, a, v)
        | some (false, idx2, vis2) =>
          match (if dirCond vis2 .down i j then
              canFind puzzle searchStr fuel (i + 1) j idx2 vis2
            else some (false, idx2, vis2)) with
          | none => none
          | some (true, a, v) => some (true, a, v)
          | some (false, idx3, vis3) =>
            match (if dirCond vis3 .left i j then
                canFind puzzle searchStr fuel i (j - 1) idx3 vis3
              else some (false, idx3, vis3)) with
            | none => none
            | some (true, a, v) => some (true, a, v)
            | some (false, idx4, vis4) =>
              match (if dirCond vis4 .right i j then
                  canFind puzzle searchStr fuel i (j + 1) idx4 vis4
                else some (false, idx4, vis4)) with
              | none => none
              | some (true, a, v) => some (true, a, v)
              | some (false, idx5, vis5) =>
                some (false, idx5 - 1, setCell vis5 i j false)
    else some (false, index, visited)

/-- The row-major list of starting cells `(i, j)` tried by the top-level
double loop of `findStringInSnakingPuzzle`. -/
def startCells (puzzle : List (List Char)) : List (Int × Int) :=
  puzzle.enum.flatMap fun p =>
    (List.range p.2.length).map fun (j : Nat) => ((p.1 : Int), (j : Int))

/-- `new Array(puzzle.length).fill(0).map((v,i) => new
Array(puzzle[i].length).fill(false))`: an all-false mask of the same shape
as the puzzle. -/
def mkVisited (puzzle : List (List Char)) : Vis :=
  puzzle.map fun row => row.map fun _ => false

/-- The top-level loop of `findStringInSnakingPuzzle`: try each starting
cell in order, threading the shared closure state `(index, visited)`. -/
def existsLoop (puzzle : List (List Char)) (searchStr : List Char)
    (fuel : Nat) : List (Int × Int) → Int → Vis → Option CFRes
  | [], idx, vis => some (false, idx, vis)
  | (i, j) :: rest, idx, vis =>
    match canFind puzzle searchStr fuel i j idx vis with
    | none => none
    | some (true, a, v) => some (true, a, v)
    | some (false, idx1, vis1) => existsLoop puzzle searchStr fuel rest idx1 vis1

/-- `findStringInSnakingPuzzle`, instrumented to also return the final
closure state `(index, visited)` at the moment of return (the JS function
discards it; claims about the visited mask refer to this state). -/
def findStringSt (fuel : Nat) (puzzle : List (List Char))
    (searchStr : List Char) : Option CFRes :=
  existsLoop puzzle searchStr fuel (startCells puzzle) 0 (mkVisited puzzle)

/-- `findStringInSnakingPuzzle(puzzle, searchStr)`: the boolean the JS
function returns. -/
def findStringInSnakingPuzzle (fuel : Nat) (puzzle : List (List Char))
    (searchStr : List Char) : Option Bool :=
  (findStringSt fuel puzzle searchStr).map (·.1)

/-! #### Order-parametrised variant, for the direction-order claim.

`canFindOrd` is `canFindStartedFrom` with the four direction attempts
factored into a fold over an explicit direction list; with the source's order
`[up, down, left, right]` it is provably equal to `canFind`
(`canFindOrd_canonical`). -/

/-- Run the direction attempts of one `canFindStartedFrom` frame in the given
order; when all fail, execute the fall-through
`index--; visited[i][j] = false; return false`.  `next` is the recursive
search at the remaining fuel. -/
def runDirs (next : Int → Int → Int → Vis → Option CFRes) :
    List Dir → Int → Int → Int → Vis → Option CFRes
  | [], i, j, idx, vis => some (false, idx - 1, setCell vis i j false)
  | d :: ds, i, j, idx, vis =>
    if dirCond vis d i j then
      match next (dirPos d i j).1 (dirPos d i j).2 idx vis with
      | none => none
      | some (true, a, v) => some (true, a, v)
      | some (false, idx1, vis1) => runDirs next ds i j idx1 vis1
    else runDirs next ds i j idx vis

/-- `canFindStartedFrom` with the direction attempts tried in the order given
by `ord`. -/
def canFindOrd (puzzle : List (List Char)) (searchStr : List Char)
    (ord : List Dir) : Nat → Int → Int → Int → Vis → Option CFRes
  | 0, _, _, _, _ => none
  | fuel + 1, i, j, index, visited =>
    if guardCond puzzle searchStr i j index then
      let idx1 := index + 1
      let vis1 := setCell visited i j true
      if idx1 = (searchStr.length : Int) then some (true, idx1, vis1)
      else runDirs (canFindOrd puzzle searchStr ord fuel) ord i j idx1 vis1
    else some (false, index, visited)

/-- The top-level loop, with the direction order `ord` inside. -/
def existsLoopOrd (puzzle : List (List Char)) (searchStr : List Char)
    (ord : List Dir) (fuel : Nat) : List (Int × Int) → Int → Vis → Option CFRes
  | [], idx, vis => some (false, idx, vis)
  | (i, j) :: rest, idx, vis =>
    match canFindOrd puzzle searchStr ord fuel i j idx vis with
    | none => none
    | some (true, a, v) => some (true, a, v)
    | some (false, idx1, vis1) =>
      existsLoopOrd puzzle searchStr ord fuel rest idx1 vis1

/-- `findStringInSnakingPuzzle` with the four directions explored in the
order `ord` instead of the source's `[up, down, left, right]`. -/
def findStringOrd (ord : List Dir) (fuel : Nat) (puzzle : List (List Char))
    (searchStr : List Char) : Option Bool :=
  (existsLoopOrd puzzle searchStr ord fuel (startCells puzzle) 0
    (mkVisited puzzle)).map (·.1)

/-! #### Measures on the visited mask -/

/-- Number of `true` cells of the mask. -/
def countTrue (vss : Vis) : Nat := (vss.map fun r => r.count true).sum

/-- Number of `false` cells of the mask. -/
def countFalse (vss : Vis) : Nat := (vss.map fun r => r.count false).sum

/-- Total number of cells of a grid. -/
def totalCells (xss : List (List α)) : Nat := (xss.map List.length).sum

/-- The shape (list of row lengths) of a matrix. -/
def shape2 (xss : List (List α)) : List Nat := xss.map List.length

/-! #### Declarative path predicates (for the row/column claim) -/

/-- Two cells are 4-directionally adjacent (there is a step from `a` to `b`). -/
def adjacent (a b : Int × Int) : Prop :=
  b = dirPos .up a.1 a.2 ∨ b = dirPos .down a.1 a.2 ∨
  b = dirPos .left a.1 a.2 ∨ b = dirPos .right a.1 a.2

/-- The cells `p` spell the characters `cs` in the grid (each cell is in
bounds and holds the corresponding character). -/
def spellsAt (puzzle : List (List Char)) (p : List (Int × Int))
    (cs : List Char) : Prop :=
  p.map (fun c => jsCell puzzle c.1 c.2) = cs.map some

/-- `p` is a self-avoiding 4-directional path avoiding the cells currently
marked in `vis`. -/
def snakePath (vis : Vis) (p : List (Int × Int)) : Prop :=
  p.Nodup ∧ List.Chain' adjacent p ∧
  ∀ c ∈ p, truthyCell (jsCell vis c.1 c.2) = false

/-- `cs` is the `j`-th column of the grid: the grid has at least one row and
every row has a character at position `j`; reading them top to bottom gives
`cs`. -/
def colSpell (grid : List (List Char)) (j : Nat) (cs : List Char) : Prop :=
  grid ≠ [] ∧ grid.map (fun row => row[j]?) = cs.map some

/-- The boolean returned by one direction attempt (`false` when fuel runs
out; only used under hypotheses that rule that case out). -/
def nextBool (next : Int → Int → Int → Vis → Option CFRes)
    (i j idx : Int) (vis : Vis) (d : Dir) : Bool :=
  match next (dirPos d i j).1 (dirPos d i j).2 idx vis with
  | some (b, _, _) => b
  | none => false

/-- For `k ≤ 0` the recursion `generate(k) → generate(k-1) → ...` never hits
the base case `k === 1`, so it runs out of any amount of fuel: the JS program
recurses forever. -/
theorem generate_nonpos (fuel : Nat) :
    ∀ (k : Int) (arr : List Char) (output : List String), k ≤ 0 →
      generate fuel k arr output = none := by
  induction fuel with
  | zero => intro k arr output _; rfl
  | succ n ih =>
    intro k arr output hk
    have hk1 : ¬ (k = 1) := by omega
    have : generate n (k - 1) arr output = none := ih (k - 1) arr output (by omega)
    simp [generate, hk1, this]

/-! ### List helper lemmas -/

theorem list_set_same (l : List α) (n : Nat) (a : α) (h : l[n]? = some a) :
    l.set n a = l := by
  apply List.ext_getElem?
  intro m
  rw [List.getElem?_set]
  rcases List.getElem?_eq_some.mp h with ⟨hb, hv⟩
  by_cases hnm : n = m
  · subst hnm
    simp [hb, h]
  · simp [hnm]

theorem sum_set_nat (l : List Nat) (n : Nat) (x y : Nat) (h : l[n]? = some x) :
    (l.set n y).sum + x = l.sum + y := by
  induction l generalizing n with
  | nil => simp at h
  | cons hd tl ih =>
    cases n with
    | zero =>
      simp at h
      subst h
      simp [List.set]
      omega
    | succ m =>
      simp at h
      have := ih m h
      simp [List.set]
      omega

theorem count_set_bool (l : List Bool) (m : Nat) (h : l[m]? = some false) :
    (l.set m true).count true = l.count true + 1 ∧
      l.count false = (l.set m true).count false + 1 := by
  induction l generalizing m with
  | nil => simp at h
  | cons hd tl ih =>
    cases m with
    | zero =>
      simp at h
      subst h
      simp [List.set, List.count_cons]
    | succ m =>
      simp at h
      have := ih m h
      simp [List.set, List.count_cons]
      cases hd <;> simp <;> omega

/-! ### Cell access and update lemmas -/

theorem jsCell_eq_some {xss : List (List α)} {i j : Int} {a : α} :
    jsCell xss i j = some a ↔
      ∃ row, 0 ≤ i ∧ xss[i.toNat]? = some row ∧ 0 ≤ j ∧ row[j.toNat]? = some a := by
  unfold jsCell jsRow
  by_cases hi : i < 0
  · simp [hi]
  · simp only [if_neg hi]
    cases hrow : xss[i.toNat]? with
    | none => simp
    | some row =>
      by_cases hj : j < 0
      · simp [hj]
      · simp [hj]
        constructor
        · intro h
          exact ⟨by omega, by omega, h⟩
        · rintro ⟨-, -, h⟩
          exact h

theorem jsRow_isSome {xss : List (List α)} {i : Int} :
    (jsRow xss i).isSome ↔ 0 ≤ i ∧ i.toNat < xss.length := by
  unfold jsRow
  by_cases hi : i < 0
  · simp [hi]
  · simp [hi, Option.isSome_iff_exists, List.getElem?_eq_some]
    constructor
    · rintro ⟨row, hlt, -⟩
      exact ⟨by omega, hlt⟩
    · rintro ⟨-, hlt⟩
      exact ⟨xss[i.toNat], hlt, rfl⟩

theorem truthyCell_false_iff {o : Option Bool} :
    truthyCell o = false ↔ o = none ∨ o = some false := by
  cases o with
  | none => simp [truthyCell]
  | some b => cases b <;> simp [truthyCell]

theorem setCell_noop {vss : Vis} {i j : Int} (b : Bool)
    (h : jsCell vss i j = none) : setCell vss i j b = vss := by
  unfold setCell
  by_cases hij : i < 0 ∨ j < 0
  · simp [hij]
  · simp only [if_neg hij]
    push_neg at hij
    cases hrow : vss[i.toNat]? with
    | none => rfl
    | some row =>
      have hj : ¬ j < 0 := by omega
      have hlen : row.length ≤ j.toNat := by
        unfold jsCell jsRow at h
        simp [show ¬ i < 0 by omega, hrow, hj] at h
        exact h
      have hset : row.set j.toNat b = row := List.set_eq_of_length_le hlen
      show List.set vss i.toNat (row.set j.toNat b) = vss
      rw [hset, list_set_same _ _ _ hrow]

theorem shape2_setCell (vss : Vis) (i j : Int) (b : Bool) :
    shape2 (setCell vss i j b) = shape2 vss := by
  unfold setCell
  by_cases hij : i < 0 ∨ j < 0
  · simp [hij]
  · simp only [if_neg hij]
    cases hrow : vss[i.toNat]? with
    | none => rfl
    | some row =>
      unfold shape2
      rw [List.map_set]
      simp only [List.length_set]
      exact list_set_same _ _ _ (by simp [List.getElem?_map, hrow])

theorem jsCell_setCell_self {vss : Vis} {i j : Int} {a : Bool} (b : Bool)
    (h : jsCell vss i j = some a) : jsCell (setCell vss i j b) i j = some b := by
  rcases jsCell_eq_some.mp h with ⟨row, hi, hrow, hj, hcell⟩
  have hib : i.toNat < vss.length := (List.getElem?_eq_some.mp hrow).1
  have hjb : j.toNat < row.length := (List.getElem?_eq_some.mp hcell).1
  apply jsCell_eq_some.mpr
  refine ⟨row.set j.toNat b, hi, ?_, hj, ?_⟩
  · unfold setCell
    simp only [if_neg (by omega : ¬ (i < 0 ∨ j < 0)), hrow]
    exact List.getElem?_set_self (by simpa using hib)
  · exact List.getElem?_set_self (by simpa using hjb)

theorem jsCell_setCell_ne {vss : Vis} {i j : Int} (b : Bool) {x y : Int}
    (h : ¬ (x = i ∧ y = j)) :
    jsCell (setCell vss i j b) x y = jsCell vss x y := by
  unfold setCell
  by_cases hij : i < 0 ∨ j < 0
  · simp [hij]
  · simp only [if_neg hij]
    cases hrow : vss[i.toNat]? with
    | none => rfl
    | some row =>
      push_neg at hij
      unfold jsCell jsRow
      by_cases hx : x < 0
      · simp [hx]
      · simp only [if_neg hx]
        by_cases hxi : x = i
        · subst hxi
          have hy : y ≠ j := by tauto
          rw [List.getElem?_set_self (by
            simpa using (List.getElem?_eq_some.mp hrow).1)]
          rw [hrow]
          by_cases hyneg : y < 0
          · simp [hyneg]
          · simp only [if_neg hyneg]
            rw [List.getElem?_set_ne (by omega)]
        · rw [List.getElem?_set_ne (by omega)]

theorem setCell_collapse {vss : Vis} {i j : Int}
    (h : truthyCell (jsCell vss i j) = false) :
    setCell (setCell vss i j true) i j false = vss := by
  rcases truthyCell_false_iff.mp h with hnone | hsome
  · rw [setCell_noop true hnone, setCell_noop false hnone]
  · rcases jsCell_eq_some.mp hsome with ⟨row, hi, hrow, hj, hcell⟩
    have hib : i.toNat < vss.length := (List.getElem?_eq_some.mp hrow).1
    have hjb : j.toNat < row.length := (List.getElem?_eq_some.mp hcell).1
    have hguard : ¬ (i < 0 ∨ j < 0) := by omega
    unfold setCell
    simp only [if_neg hguard, hrow]
    rw [List.getElem?_set_self (by simpa using hib)]
    show (List.set vss i.toNat (row.set j.toNat true)).set i.toNat
      ((row.set j.toNat true).set j.toNat false) = vss
    rw [List.set_set, List.set_set]
    rw [list_set_same _ _ _ hcell, list_set_same _ _ _ hrow]

theorem countTrue_setCell {vss : Vis} {i j : Int}
    (h : jsCell vss i j = some false) :
    countTrue (setCell vss i j true) = countTrue vss + 1 := by
  rcases jsCell_eq_some.mp h with ⟨row, hi, hrow, hj, hcell⟩
  have hguard : ¬ (i < 0 ∨ j < 0) := by omega
  unfold setCell
  simp only [if_neg hguard, hrow]
  unfold countTrue
  rw [List.map_set]
  have hcnt := (count_set_bool row j.toNat hcell).1
  have hsum := sum_set_nat (vss.map fun r => r.count true) i.toNat
    (row.count true) ((row.set j.toNat true).count true)
    (by simp [List.getElem?_map, hrow])
  omega

theorem countFalse_setCell {vss : Vis} {i j : Int}
    (h : jsCell vss i j = some false) :
    countFalse vss = countFalse (setCell vss i j true) + 1 := by
  rcases jsCell_eq_some.mp h with ⟨row, hi, hrow, hj, hcell⟩
  have hguard : ¬ (i < 0 ∨ j < 0) := by omega
  unfold setCell
  simp only [if_neg hguard, hrow]
  unfold countFalse
  rw [List.map_set]
  have hcnt := (count_set_bool row j.toNat hcell).2
  have hsum := sum_set_nat (vss.map fun r => r.count false) i.toNat
    (row.count false) ((row.set j.toNat true).count false)
    (by simp [List.getElem?_map, hrow])
  omega

/-! ### Shape transfer, mask construction, guard helpers -/

theorem length_eq_of_shape2 {xss : List (List α)} {yss : List (List β)}
    (h : shape2 xss = shape2 yss) : xss.length = yss.length := by
  have := congrArg List.length h
  simpa [shape2] using this

theorem row_length_of_shape2 {xss : List (List α)} {yss : List (List β)}
    (h : shape2 xss = shape2 yss) {n : Nat} {rx : List α}
    (hx : xss[n]? = some rx) : ∃ ry, yss[n]? = some ry ∧ ry.length = rx.length := by
  have hmap : (shape2 xss)[n]? = (shape2 yss)[n]? := by rw [h]
  unfold shape2 at hmap
  rw [List.getElem?_map, List.getElem?_map, hx] at hmap
  cases hy : yss[n]? with
  | none => rw [hy] at hmap; simp at hmap
  | some ry =>
    rw [hy] at hmap
    simp at hmap
    exact ⟨ry, rfl, hmap.symm⟩

theorem jsCell_of_shape2 {vss : Vis} {xss : List (List α)}
    (hsh : shape2 vss = shape2 xss) {i j : Int} {a : α}
    (hx : jsCell xss i j = some a) : ∃ b, jsCell vss i j = some b := by
  rcases jsCell_eq_some.mp hx with ⟨row, hi, hrow, hj, hcell⟩
  rcases row_length_of_shape2 hsh.symm hrow with ⟨vrow, hvrow, hlen⟩
  have hjb : j.toNat < vrow.length := by
    rw [hlen]; exact (List.getElem?_eq_some.mp hcell).1
  refine ⟨vrow[j.toNat], jsCell_eq_some.mpr ⟨vrow, hi, hvrow, hj, ?_⟩⟩
  exact List.getElem?_eq_getElem hjb

theorem vis_cell_false {vss : Vis} {xss : List (List Char)}
    (hsh : shape2 vss = shape2 xss) {i j : Int} {a : Char}
    (hx : jsCell xss i j = some a)
    (ht : truthyCell (jsCell vss i j) = false) : jsCell vss i j = some false := by
  rcases jsCell_of_shape2 hsh hx with ⟨b, hb⟩
  rcases truthyCell_false_iff.mp ht with hn | hf
  · rw [hn] at hb; cases hb
  · exact hf

theorem shape2_mkVisited (p : List (List Char)) :
    shape2 (mkVisited p) = shape2 p := by
  unfold shape2 mkVisited
  rw [List.map_map]
  simp [Function.comp]

theorem jsCell_mkVisited (p : List (List Char)) (i j : Int) :
    jsCell (mkVisited p) i j = (jsCell p i j).map fun _ => false := by
  unfold jsCell jsRow mkVisited
  by_cases hi : i < 0
  · simp [hi]
  · simp only [if_neg hi, List.getElem?_map]
    cases hrow : p[i.toNat]? with
    | none => rfl
    | some row =>
      simp only [Option.map_some]
      by_cases hj : j < 0
      · simp [hj]
      · simp only [if_neg hj]
        exact List.getElem?_map _ _ _

theorem truthy_mkVisited (p : List (List Char)) (i j : Int) :
    truthyCell (jsCell (mkVisited p) i j) = false := by
  rw [jsCell_mkVisited]
  cases jsCell p i j <;> simp [truthyCell]

theorem countTrue_mkVisited (p : List (List Char)) :
    countTrue (mkVisited p) = 0 := by
  unfold countTrue mkVisited
  rw [List.map_map]
  apply List.sum_eq_zero
  intro x hx
  rcases List.mem_map.mp hx with ⟨row, -, hrow⟩
  subst hrow
  simp [List.count_eq_zero, Function.comp]

theorem countFalse_mkVisited (p : List (List Char)) :
    countFalse (mkVisited p) = totalCells p := by
  unfold countFalse mkVisited totalCells
  rw [List.map_map]
  congr 1
  apply List.map_congr_left
  intro row _
  simp [Function.comp, List.count_replicate]

theorem rowTruthy_of_cell {puzzle : List (List Char)} {i j : Int} {c : Char}
    (h : jsCell puzzle i j = some c) : rowTruthy puzzle i = true := by
  rcases jsCell_eq_some.mp h with ⟨row, hi, hrow, hj, hcell⟩
  unfold rowTruthy jsRow
  simp only [if_neg (by omega : ¬ i < 0), hrow]
  have : row ≠ [] := by
    intro hnil
    subst hnil
    simp at hcell
  simp [List.isEmpty_iff, this]

theorem guard_char {puzzle : List (List Char)} {searchStr : List Char}
    {i j idx : Int} (hg : guardCond puzzle searchStr i j idx = true)
    (h0 : 0 ≤ idx) (hlt : idx < (searchStr.length : Int)) :
    ∃ c, jsCharAt searchStr idx = some c ∧ jsCell puzzle i j = some c := by
  unfold guardCond at hg
  simp only [Bool.and_eq_true] at hg
  obtain ⟨-, hbeq⟩ := hg
  have hltn : idx.toNat < searchStr.length := by omega
  have hchar : jsCharAt searchStr idx = some searchStr[idx.toNat] := by
    unfold jsCharAt
    simp [show ¬ idx < 0 by omega, List.getElem?_eq_getElem hltn]
  refine ⟨searchStr[idx.toNat], hchar, ?_⟩
  have := eq_of_beq hbeq
  rw [this, hchar]

theorem dirCond_target {vis : Vis} {d : Dir} {i j : Int}
    (h : dirCond vis d i j = true) :
    truthyCell (jsCell vis (dirPos d i j).1 (dirPos d i j).2) = false := by
  cases d <;> simp [dirCond, dirPos] at h ⊢ <;> simp [h]

theorem perm_any {l₁ l₂ : List α} (h : l₁.Perm l₂) (f : α → Bool) :
    l₁.any f = l₂.any f := by
  have hiff : (l₁.any f = true) ↔ (l₂.any f = true) := by
    rw [List.any_eq_true, List.any_eq_true]
    constructor
    · rintro ⟨x, hx, hfx⟩
      exact ⟨x, h.mem_iff.mp hx, hfx⟩
    · rintro ⟨x, hx, hfx⟩
      exact ⟨x, h.mem_iff.mpr hx, hfx⟩
  cases h1 : l₁.any f <;> cases h2 : l₂.any f <;> simp_all

/-! ### `runDirs` lemmas

All are parametric in `next` (the recursive search at the remaining fuel),
under the hypothesis that a failed attempt restores the state — which holds
for the real search (`canFindOrd_restore` below).  The state is the fixed
pair `(idx1, vis1)` throughout, precisely because failed attempts restore
it. -/

theorem runDirs_restore (next : Int → Int → Int → Vis → Option CFRes)
    (i j idx1 : Int) (vis1 : Vis)
    (Hres : ∀ d, dirCond vis1 d i j = true → ∀ idx2 vis2,
      next (dirPos d i j).1 (dirPos d i j).2 idx1 vis1 = some (false, idx2, vis2) →
      idx2 = idx1 ∧ vis2 = vis1) :
    ∀ (ds : List Dir) (idx2 : Int) (vis2 : Vis),
      runDirs next ds i j idx1 vis1 = some (false, idx2, vis2) →
      idx2 = idx1 - 1 ∧ vis2 = setCell vis1 i j false := by
  intro ds
  induction ds with
  | nil =>
    intro idx2 vis2 h
    simp only [runDirs, Option.some.injEq, Prod.mk.injEq] at h
    exact ⟨h.2.1.symm, h.2.2.symm⟩
  | cons d ds ih =>
    intro idx2 vis2 h
    by_cases hc : dirCond vis1 d i j
    · simp only [runDirs, if_pos hc] at h
      cases hnext : next (dirPos d i j).1 (dirPos d i j).2 idx1 vis1 with
      | none => simp [hnext] at h
      | some r =>
        obtain ⟨b, a2, v2⟩ := r
        simp only [hnext] at h
        cases b with
        | true => simp at h
        | false =>
          obtain ⟨ha, hv⟩ := Hres d hc a2 v2 hnext
          subst ha
          subst hv
          exact ih idx2 vis2 h
    · simp only [runDirs, if_neg hc] at h
      exact ih idx2 vis2 h

theorem runDirs_true (next : Int → Int → Int → Vis → Option CFRes)
    (i j idx1 : Int) (vis1 : Vis)
    (Hres : ∀ d, dirCond vis1 d i j = true → ∀ idx2 vis2,
      next (dirPos d i j).1 (dirPos d i j).2 idx1 vis1 = some (false, idx2, vis2) →
      idx2 = idx1 ∧ vis2 = vis1) :
    ∀ (ds : List Dir) (a : Int) (b : Vis),
      runDirs next ds i j idx1 vis1 = some (true, a, b) →
      ∃ d ∈ ds, dirCond vis1 d i j = true ∧
        next (dirPos d i j).1 (dirPos d i j).2 idx1 vis1 = some (true, a, b) := by
  intro ds
  induction ds with
  | nil =>
    intro a b h
    simp only [runDirs, Option.some.injEq, Prod.mk.injEq] at h
    exact absurd h.1 (by simp)
  | cons d ds ih =>
    intro a b h
    by_cases hc : dirCond vis1 d i j
    · simp only [runDirs, if_pos hc] at h
      cases hnext : next (dirPos d i j).1 (dirPos d i j).2 idx1 vis1 with
      | none => simp [hnext] at h
      | some r =>
        obtain ⟨bb, a2, v2⟩ := r
        simp only [hnext] at h
        cases bb with
        | true =>
          simp only [Option.some.injEq, Prod.mk.injEq, true_and] at h
          exact ⟨d, by simp, hc, by rw [hnext, h.1, h.2]⟩
        | false =>
          obtain ⟨ha, hv⟩ := Hres d hc a2 v2 hnext
          subst ha
          subst hv
          obtain ⟨d2, hd2, hcond2, hrun2⟩ := ih a b h
          exact ⟨d2, by simp [hd2], hcond2, hrun2⟩
    · simp only [runDirs, if_neg hc] at h
      obtain ⟨d2, hd2, hcond2, hrun2⟩ := ih a b h
      exact ⟨d2, by simp [hd2], hcond2, hrun2⟩

theorem runDirs_spec (next : Int → Int → Int → Vis → Option CFRes)
    (i j idx1 : Int) (vis1 : Vis)
    (Hres : ∀ d, dirCond vis1 d i j = true → ∀ idx2 vis2,
      next (dirPos d i j).1 (dirPos d i j).2 idx1 vis1 = some (false, idx2, vis2) →
      idx2 = idx1 ∧ vis2 = vis1)
    (Htot : ∀ d, dirCond vis1 d i j = true →
      ∃ r, next (dirPos d i j).1 (dirPos d i j).2 idx1 vis1 = some r) :
    ∀ ds : List Dir, ∃ st : CFRes,
      runDirs next ds i j idx1 vis1 = some st ∧
      st.1 = ds.any fun d => dirCond vis1 d i j && nextBool next i j idx1 vis1 d := by
  intro ds
  induction ds with
  | nil =>
    exact ⟨(false, idx1 - 1, setCell vis1 i j false), by simp [runDirs], by simp⟩
  | cons d ds ih =>
    by_cases hc : dirCond vis1 d i j
    · obtain ⟨r, hr⟩ := Htot d hc
      obtain ⟨b, a2, v2⟩ := r
      cases b with
      | true =>
        refine ⟨(true, a2, v2), ?_, ?_⟩
        · simp only [runDirs, if_pos hc, hr]
        · simp [List.any_cons, hc, nextBool, hr]
      | false =>
        obtain ⟨ha, hv⟩ := Hres d hc a2 v2 hr
        subst ha
        subst hv
        obtain ⟨st, hrun, hany⟩ := ih
        refine ⟨st, ?_, ?_⟩
        · simp only [runDirs, if_pos hc, hr]
          exact hrun
        · simp [List.any_cons, hc, nextBool, hr, hany]
    · obtain ⟨st, hrun, hany⟩ := ih
      refine ⟨st, ?_, ?_⟩
      · simp only [runDirs, if_neg hc]
        exact hrun
      · simp [List.any_cons, hc, hany]

/-! ### Core invariants of the recursive search -/

/-- A `canFindStartedFrom` call on an unmarked cell that returns `false`
leaves the closure state `(index, visited)` exactly as it found it. -/
theorem canFindOrd_restore (puzzle : List (List Char)) (searchStr : List Char)
    (ord : List Dir) :
    ∀ (fuel : Nat) (i j idx : Int) (vis : Vis) (idx2 : Int) (vis2 : Vis),
      truthyCell (jsCell vis i j) = false →
      canFindOrd puzzle searchStr ord fuel i j idx vis = some (false, idx2, vis2) →
      idx2 = idx ∧ vis2 = vis := by
  intro fuel
  induction fuel with
  | zero =>
    intro i j idx vis idx2 vis2 _ h
    simp [canFindOrd] at h
  | succ n ih =>
    intro i j idx vis idx2 vis2 ht h
    simp only [canFindOrd] at h
    by_cases hg : guardCond puzzle searchStr i j idx
    · rw [if_pos hg] at h
      by_cases hlen : idx + 1 = (searchStr.length : Int)
      · rw [if_pos hlen] at h
        simp at h
      · rw [if_neg hlen] at h
        have Hres : ∀ d, dirCond (setCell vis i j true) d i j = true →
            ∀ a b, canFindOrd puzzle searchStr ord n (dirPos d i j).1
              (dirPos d i j).2 (idx + 1) (setCell vis i j true) =
              some (false, a, b) →
            a = idx + 1 ∧ b = setCell vis i j true := by
          intro d hd a b hcall
          exact ih _ _ _ _ _ _ (dirCond_target hd) hcall
        obtain ⟨h1, h2⟩ :=
          runDirs_restore _ i j (idx + 1) (setCell vis i j true) Hres ord idx2 vis2 h
        refine ⟨by omega, ?_⟩
        rw [h2]
        exact setCell_collapse ht
    · rw [if_neg hg] at h
      simp at h
      exact ⟨h.1.symm, h.2.symm⟩

/-- With enough fuel (more than the number of unmarked cells) a search call
on a well-shaped state completes. -/
theorem canFindOrd_total (puzzle : List (List Char)) (searchStr : List Char)
    (ord : List Dir) :
    ∀ (fuel : Nat) (i j idx : Int) (vis : Vis),
      shape2 vis = shape2 puzzle → 0 ≤ idx →
      idx < (searchStr.length : Int) →
      truthyCell (jsCell vis i j) = false → countFalse vis < fuel →
      ∃ r, canFindOrd puzzle searchStr ord fuel i j idx vis = some r := by
  intro fuel
  induction fuel with
  | zero =>
    intro i j idx vis _ _ _ _ hcf
    omega
  | succ n ih =>
    intro i j idx vis hsh h0 hlt ht hcf
    simp only [canFindOrd]
    by_cases hg : guardCond puzzle searchStr i j idx
    · rw [if_pos hg]
      by_cases hlen : idx + 1 = (searchStr.length : Int)
      · rw [if_pos hlen]
        exact ⟨_, rfl⟩
      · rw [if_neg hlen]
        obtain ⟨c, hchar, hcell⟩ := guard_char hg h0 hlt
        have hvisf : jsCell vis i j = some false := vis_cell_false hsh hcell ht
        have hsh1 : shape2 (setCell vis i j true) = shape2 puzzle := by
          rw [shape2_setCell]; exact hsh
        have hcf1 : countFalse (setCell vis i j true) < n := by
          have := countFalse_setCell hvisf
          omega
        have Hres : ∀ d, dirCond (setCell vis i j true) d i j = true →
            ∀ a b, canFindOrd puzzle searchStr ord n (dirPos d i j).1
              (dirPos d i j).2 (idx + 1) (setCell vis i j true) =
              some (false, a, b) →
            a = idx + 1 ∧ b = setCell vis i j true := by
          intro d hd a b hcall
          exact canFindOrd_restore puzzle searchStr ord n _ _ _ _ _ _
            (dirCond_target hd) hcall
        have Htot : ∀ d, dirCond (setCell vis i j true) d i j = true →
            ∃ r, canFindOrd puzzle searchStr ord n (dirPos d i j).1
              (dirPos d i j).2 (idx + 1) (setCell vis i j true) = some r := by
          intro d hd
          exact ih _ _ _ _ hsh1 (by omega) (by omega) (dirCond_target hd) hcf1
        obtain ⟨st, hrun, -⟩ :=
          runDirs_spec _ i j (idx + 1) (setCell vis i j true) Hres Htot ord
        exact ⟨st, hrun⟩
    · rw [if_neg hg]
      exact ⟨_, rfl⟩

/-- The count invariant: whenever a call is made on a state in which the
number of marked cells equals `index`, the state it returns also satisfies
this (on success the matched path stays marked, on failure the state is
restored). -/
theorem canFindOrd_count (puzzle : List (List Char)) (searchStr : List Char)
    (ord : List Dir) :
    ∀ (fuel : Nat) (i j idx : Int) (vis : Vis) (b : Bool) (idx2 : Int)
      (vis2 : Vis),
      shape2 vis = shape2 puzzle → 0 ≤ idx →
      idx < (searchStr.length : Int) →
      truthyCell (jsCell vis i j) = false → (countTrue vis : Int) = idx →
      canFindOrd puzzle searchStr ord fuel i j idx vis = some (b, idx2, vis2) →
      (countTrue vis2 : Int) = idx2 ∧ shape2 vis2 = shape2 puzzle := by
  intro fuel
  induction fuel with
  | zero =>
    intro i j idx vis b idx2 vis2 _ _ _ _ _ h
    simp [canFindOrd] at h
  | succ n ih =>
    intro i j idx vis b idx2 vis2 hsh h0 hlt ht hct h
    cases b with
    | false =>
      obtain ⟨h1, h2⟩ :=
        canFindOrd_restore puzzle searchStr ord (n + 1) _ _ _ _ _ _ ht h
      subst h1
      subst h2
      exact ⟨hct, hsh⟩
    | true =>
      simp only [canFindOrd] at h
      by_cases hg : guardCond puzzle searchStr i j idx
      · rw [if_pos hg] at h
        obtain ⟨c, hchar, hcell⟩ := guard_char hg h0 hlt
        have hvisf : jsCell vis i j = some false := vis_cell_false hsh hcell ht
        have hct1 : (countTrue (setCell vis i j true) : Int) = idx + 1 := by
          have := countTrue_setCell hvisf
          omega
        have hsh1 : shape2 (setCell vis i j true) = shape2 puzzle := by
          rw [shape2_setCell]; exact hsh
        by_cases hlen : idx + 1 = (searchStr.length : Int)
        · rw [if_pos hlen] at h
          simp only [Option.some.injEq, Prod.mk.injEq, true_and] at h
          rw [← h.1, ← h.2]
          exact ⟨hct1, hsh1⟩
        · rw [if_neg hlen] at h
          have Hres : ∀ d, dirCond (setCell vis i j true) d i j = true →
              ∀ a v, canFindOrd puzzle searchStr ord n (dirPos d i j).1
                (dirPos d i j).2 (idx + 1) (setCell vis i j true) =
                some (false, a, v) →
              a = idx + 1 ∧ v = setCell vis i j true := by
            intro d hd a v hcall
            exact canFindOrd_restore puzzle searchStr ord n _ _ _ _ _ _
              (dirCond_target hd) hcall
          obtain ⟨d, hd, hcond, hcall⟩ :=
            runDirs_true _ i j (idx + 1) (setCell vis i j true) Hres ord idx2 vis2 h
          exact ih _ _ _ _ _ _ _ hsh1 (by omega) (by omega)
            (dirCond_target hcond) hct1 hcall
      · rw [if_neg hg] at h
        simp at h

/-- Soundness of a successful search: every character of the still-unmatched
suffix of the search string occurs somewhere in the puzzle. -/
theorem canFindOrd_sound (puzzle : List (List Char)) (searchStr : List Char)
    (ord : List Dir) :
    ∀ (fuel : Nat) (i j idx : Int) (vis : Vis) (idx2 : Int) (vis2 : Vis),
      0 ≤ idx → idx < (searchStr.length : Int) →
      canFindOrd puzzle searchStr ord fuel i j idx vis = some (true, idx2, vis2) →
      ∀ c ∈ searchStr.drop idx.toNat, c ∈ puzzle.flatten := by
  intro fuel
  induction fuel with
  | zero =>
    intro i j idx vis idx2 vis2 _ _ h
    simp [canFindOrd] at h
  | succ n ih =>
    intro i j idx vis idx2 vis2 h0 hlt h c hc
    simp only [canFindOrd] at h
    by_cases hg : guardCond puzzle searchStr i j idx
    · rw [if_pos hg] at h
      obtain ⟨cc, hchar, hcell⟩ := guard_char hg h0 hlt
      have hmem : cc ∈ puzzle.flatten := by
        rcases jsCell_eq_some.mp hcell with ⟨row, -, hrow, -, hcc⟩
        exact List.mem_flatten.mpr ⟨row, List.getElem?_mem hrow, List.getElem?_mem hcc⟩
      have hchar2 : searchStr[idx.toNat]? = some cc := by
        unfold jsCharAt at hchar
        simpa [show ¬ idx < 0 by omega] using hchar
      obtain ⟨hbnd, hval⟩ := List.getElem?_eq_some.mp hchar2
      have hdrop : searchStr.drop idx.toNat = cc :: searchStr.drop (idx.toNat + 1) := by
        rw [List.drop_eq_getElem_cons hbnd, hval]
      rw [hdrop] at hc
      rcases List.mem_cons.mp hc with hceq | hctail
      · rw [hceq]
        exact hmem
      · by_cases hlen : idx + 1 = (searchStr.length : Int)
        · have hnil : searchStr.drop (idx.toNat + 1) = [] :=
            List.drop_eq_nil_of_le (by omega)
          rw [hnil] at hctail
          cases hctail
        · rw [if_neg hlen] at h
          have Hres : ∀ d, dirCond (setCell vis i j true) d i j = true →
              ∀ a v, canFindOrd puzzle searchStr ord n (dirPos d i j).1
                (dirPos d i j).2 (idx + 1) (setCell vis i j true) =
                some (false, a, v) →
              a = idx + 1 ∧ v = setCell vis i j true := by
            intro d hd a v hcall
            exact canFindOrd_restore puzzle searchStr ord n _ _ _ _ _ _
              (dirCond_target hd) hcall
          obtain ⟨d, hd, hcond, hcall⟩ :=
            runDirs_true _ i j (idx + 1) (setCell vis i j true) Hres ord idx2 vis2 h
          have := ih _ _ _ _ _ _ (by omega) (by omega) hcall c
          rw [show (idx + 1).toNat = idx.toNat + 1 by omega] at this
          exact this hctail
    · rw [if_neg hg] at h
      simp at h

/-- Because failed attempts restore the state, the boolean outcome of a
search call does not depend on the order in which the four directions are
tried (with enough fuel for every attempt to complete). -/
theorem canFindOrd_perm (puzzle : List (List Char)) (searchStr : List Char) :
    ∀ (fuel : Nat) (ordA ordB : List Dir) (i j idx : Int) (vis : Vis),
      ordA.Perm ordB →
      shape2 vis = shape2 puzzle → 0 ≤ idx →
      idx < (searchStr.length : Int) →
      truthyCell (jsCell vis i j) = false → countFalse vis < fuel →
      ∃ bv idx2 vis2 idx3 vis3,
        canFindOrd puzzle searchStr ordA fuel i j idx vis = some (bv, idx2, vis2) ∧
        canFindOrd puzzle searchStr ordB fuel i j idx vis = some (bv, idx3, vis3) := by
  intro fuel
  induction fuel with
  | zero =>
    intro ordA ordB i j idx vis _ _ _ _ _ hcf
    omega
  | succ n ih =>
    intro ordA ordB i j idx vis hperm hsh h0 hlt ht hcf
    simp only [canFindOrd]
    by_cases hg : guardCond puzzle searchStr i j idx
    · rw [if_pos hg, if_pos hg]
      by_cases hlen : idx + 1 = (searchStr.length : Int)
      · rw [if_pos hlen, if_pos hlen]
        exact ⟨true, _, _, _, _, rfl, rfl⟩
      · rw [if_neg hlen, if_neg hlen]
        obtain ⟨c, hchar, hcell⟩ := guard_char hg h0 hlt
        have hvisf : jsCell vis i j = some false := vis_cell_false hsh hcell ht
        have hsh1 : shape2 (setCell vis i j true) = shape2 puzzle := by
          rw [shape2_setCell]; exact hsh
        have hcf1 : countFalse (setCell vis i j true) < n := by
          have := countFalse_setCell hvisf
          omega
        have HresA : ∀ d, dirCond (setCell vis i j true) d i j = true →
            ∀ a v, canFindOrd puzzle searchStr ordA n (dirPos d i j).1
              (dirPos d i j).2 (idx + 1) (setCell vis i j true) =
              some (false, a, v) →
            a = idx + 1 ∧ v = setCell vis i j true := by
          intro d hd a v hcall
          exact canFindOrd_restore puzzle searchStr ordA n _ _ _ _ _ _
            (dirCond_target hd) hcall
        have HresB : ∀ d, dirCond (setCell vis i j true) d i j = true →
            ∀ a v, canFindOrd puzzle searchStr ordB n (dirPos d i j).1
              (dirPos d i j).2 (idx + 1) (setCell vis i j true) =
              some (false, a, v) →
            a = idx + 1 ∧ v = setCell vis i j true := by
          intro d hd a v hcall
          exact canFindOrd_restore puzzle searchStr ordB n _ _ _ _ _ _
            (dirCond_target hd) hcall
        have HtotA : ∀ d, dirCond (setCell vis i j true) d i j = true →
            ∃ r, canFindOrd puzzle searchStr ordA n (dirPos d i j).1
              (dirPos d i j).2 (idx + 1) (setCell vis i j true) = some r := by
          intro d hd
          exact canFindOrd_total puzzle searchStr ordA n _ _ _ _ hsh1 (by omega)
            (by omega) (dirCond_target hd) hcf1
        have HtotB : ∀ d, dirCond (setCell vis i j true) d i j = true →
            ∃ r, canFindOrd puzzle searchStr ordB n (dirPos d i j).1
              (dirPos d i j).2 (idx + 1) (setCell vis i j true) = some r := by
          intro d hd
          exact canFindOrd_total puzzle searchStr ordB n _ _ _ _ hsh1 (by omega)
            (by omega) (dirCond_target hd) hcf1
        obtain ⟨stA, hrunA, hanyA⟩ :=
          runDirs_spec (canFindOrd puzzle searchStr ordA n) i j (idx + 1)
            (setCell vis i j true) HresA HtotA ordA
        obtain ⟨stB, hrunB, hanyB⟩ :=
          runDirs_spec (canFindOrd puzzle searchStr ordB n) i j (idx + 1)
            (setCell vis i j true) HresB HtotB ordB
        have hfe : (fun d => dirCond (setCell vis i j true) d i j &&
              nextBool (canFindOrd puzzle searchStr ordA n) i j (idx + 1)
                (setCell vis i j true) d) =
            (fun d => dirCond (setCell vis i j true) d i j &&
              nextBool (canFindOrd puzzle searchStr ordB n) i j (idx + 1)
                (setCell vis i j true) d) := by
          funext d
          by_cases hc : dirCond (setCell vis i j true) d i j
          · obtain ⟨bv, a2, v2, a3, v3, hA, hB⟩ :=
              ih ordA ordB (dirPos d i j).1 (dirPos d i j).2 (idx + 1)
                (setCell vis i j true) hperm hsh1 (by omega) (by omega)
                (dirCond_target hc) hcf1
            simp [hc, nextBool, hA, hB]
          · simp [hc]
        have hbool : stA.1 = stB.1 := by
          rw [hanyA, hanyB, hfe, perm_any hperm]
        refine ⟨stA.1, stA.2.1, stA.2.2, stB.2.1, stB.2.2, ?_, ?_⟩
        · rw [hrunA]
        · rw [hrunB, hbool]
    · rw [if_neg hg, if_neg hg]
      exact ⟨false, _, _, _, _, rfl, rfl⟩

theorem jsRow_isSome_of_cell {xss : List (List α)} {i j : Int} {a : α}
    (h : jsCell xss i j = some a) : (jsRow xss i).isSome = true := by
  rcases jsCell_eq_some.mp h with ⟨row, hi, hrow, -, -⟩
  unfold jsRow
  simp [show ¬ i < 0 by omega, hrow]

theorem dirCond_of_free {vis : Vis} {d : Dir} {i j : Int}
    (hrow : (jsRow vis (dirPos d i j).1).isSome = true)
    (ht : truthyCell (jsCell vis (dirPos d i j).1 (dirPos d i j).2) = false) :
    dirCond vis d i j = true := by
  cases d <;> simp [dirCond, dirPos] at hrow ht ⊢ <;> simp [hrow, ht]

/-- Completeness of the search: if some self-avoiding path starting at
`(i, j)` spells the remaining suffix of the search string, the call returns
`true` (with enough fuel, and with every direction present in `ord`). -/
theorem canFindOrd_complete (puzzle : List (List Char)) (searchStr : List Char)
    (ord : List Dir) (hord : ∀ d : Dir, d ∈ ord) :
    ∀ (fuel : Nat) (p : List (Int × Int)) (i j idx : Int) (vis : Vis),
      shape2 vis = shape2 puzzle → 0 ≤ idx → countFalse vis < fuel →
      snakePath vis p → spellsAt puzzle p (searchStr.drop idx.toNat) →
      idx.toNat + p.length = searchStr.length →
      p.head? = some (i, j) →
      ∃ idx2 vis2,
        canFindOrd puzzle searchStr ord fuel i j idx vis = some (true, idx2, vis2) := by
  intro fuel
  induction fuel with
  | zero =>
    intro p i j idx vis _ _ hcf _ _ _ _
    omega
  | succ n ih =>
    intro p i j idx vis hsh h0 hcf hsnake hspell hplen hhead
    cases p with
    | nil => simp at hhead
    | cons hd rest =>
      have hhd : hd = (i, j) := by simpa using hhead
      subst hhd
      obtain ⟨hnodup, hchain, havoid⟩ := hsnake
      have hbnd : idx.toNat < searchStr.length := by
        simp only [List.length_cons] at hplen
        omega
      have hlt : idx < (searchStr.length : Int) := by omega
      unfold spellsAt at hspell
      rw [List.drop_eq_getElem_cons hbnd] at hspell
      simp only [List.map_cons] at hspell
      injection hspell with hcell hspellrest
      have hchar : jsCharAt searchStr idx = some searchStr[idx.toNat] := by
        unfold jsCharAt
        simp [show ¬ idx < 0 by omega, List.getElem?_eq_getElem hbnd]
      have hg : guardCond puzzle searchStr i j idx = true := by
        unfold guardCond
        rw [Bool.and_eq_true]
        refine ⟨rowTruthy_of_cell hcell, ?_⟩
        rw [hcell, hchar]
        simp
      have htij : truthyCell (jsCell vis i j) = false := havoid (i, j) (by simp)
      have hvisf : jsCell vis i j = some false := vis_cell_false hsh hcell htij
      simp only [canFindOrd]
      rw [if_pos hg]
      by_cases hlen2 : idx + 1 = (searchStr.length : Int)
      · rw [if_pos hlen2]
        exact ⟨_, _, rfl⟩
      · rw [if_neg hlen2]
        cases rest with
        | nil =>
          exfalso
          simp only [List.length_cons, List.length_nil] at hplen
          omega
        | cons q rest2 =>
          have hsh1 : shape2 (setCell vis i j true) = shape2 puzzle := by
            rw [shape2_setCell]; exact hsh
          have hcf1 : countFalse (setCell vis i j true) < n := by
            have := countFalse_setCell hvisf
            omega
          have hnotin : (i, j) ∉ q :: rest2 := (List.nodup_cons.mp hnodup).1
          have havoid1 : ∀ c ∈ q :: rest2,
              truthyCell (jsCell (setCell vis i j true) c.1 c.2) = false := by
            intro c hcmem
            have hne : ¬ (c.1 = i ∧ c.2 = j) := by
              rintro ⟨h1, h2⟩
              apply hnotin
              have hceq : c = (i, j) := Prod.ext h1 h2
              rw [← hceq]
              exact hcmem
            rw [jsCell_setCell_ne true hne]
            exact havoid c (by simp [hcmem])
          have hsnake1 : snakePath (setCell vis i j true) (q :: rest2) :=
            ⟨(List.nodup_cons.mp hnodup).2, (List.chain'_cons.mp hchain).2, havoid1⟩
          have htadd : (idx + 1).toNat = idx.toNat + 1 := by omega
          have hspell1 : spellsAt puzzle (q :: rest2)
              (searchStr.drop (idx + 1).toNat) := by
            unfold spellsAt
            rw [htadd]
            exact hspellrest
          have hplen1 : (idx + 1).toNat + (q :: rest2).length = searchStr.length := by
            simp only [List.length_cons] at hplen ⊢
            omega
          obtain ⟨a2, v2, hcall⟩ := ih (q :: rest2) q.1 q.2 (idx + 1)
            (setCell vis i j true) hsh1 (by omega) hcf1 hsnake1 hspell1 hplen1
            (by simp)
          have hadj : q = dirPos .up i j ∨ q = dirPos .down i j ∨
              q = dirPos .left i j ∨ q = dirPos .right i j :=
            (List.chain'_cons.mp hchain).1
          obtain ⟨d0, hd0⟩ : ∃ d : Dir, dirPos d i j = q := by
            rcases hadj with h | h | h | h
            exacts [⟨.up, h.symm⟩, ⟨.down, h.symm⟩, ⟨.left, h.symm⟩,
              ⟨.right, h.symm⟩]
          have hqcell : ∃ cq, jsCell puzzle q.1 q.2 = some cq := by
            have hbnd1 : idx.toNat + 1 < searchStr.length := by
              simp only [List.length_cons] at hplen
              omega
            rw [List.drop_eq_getElem_cons hbnd1] at hspellrest
            simp only [List.map_cons] at hspellrest
            injection hspellrest with h1 h2
            exact ⟨_, h1⟩
          obtain ⟨cq, hqc⟩ := hqcell
          obtain ⟨bq, hvq⟩ := jsCell_of_shape2 hsh1 hqc
          have hqrow : (jsRow (setCell vis i j true) q.1).isSome = true :=
            jsRow_isSome_of_cell hvq
          have hqfree : truthyCell
              (jsCell (setCell vis i j true) q.1 q.2) = false :=
            havoid1 q (by simp)
          have hcond : dirCond (setCell vis i j true) d0 i j = true := by
            apply dirCond_of_free <;> rw [hd0] <;> assumption
          have Hres : ∀ d, dirCond (setCell vis i j true) d i j = true →
              ∀ a v, canFindOrd puzzle searchStr ord n (dirPos d i j).1
                (dirPos d i j).2 (idx + 1) (setCell vis i j true) =
                some (false, a, v) →
              a = idx + 1 ∧ v = setCell vis i j true := by
            intro d hd a v hcall2
            exact canFindOrd_restore puzzle searchStr ord n _ _ _ _ _ _
              (dirCond_target hd) hcall2
          have Htot : ∀ d, dirCond (setCell vis i j true) d i j = true →
              ∃ r, canFindOrd puzzle searchStr ord n (dirPos d i j).1
                (dirPos d i j).2 (idx + 1) (setCell vis i j true) = some r := by
            intro d hd
            exact canFindOrd_total puzzle searchStr ord n _ _ _ _ hsh1 (by omega)
              (by omega) (dirCond_target hd) hcf1
          obtain ⟨st, hrun, hany⟩ :=
            runDirs_spec (canFindOrd puzzle searchStr ord n) i j (idx + 1)
              (setCell vis i j true) Hres Htot ord
          have hf0 : (dirCond (setCell vis i j true) d0 i j &&
              nextBool (canFindOrd puzzle searchStr ord n) i j (idx + 1)
                (setCell vis i j true) d0) = true := by
            rw [hcond]
            simp only [Bool.true_and]
            unfold nextBool
            rw [hd0, hcall]
          have hsttrue : st.1 = true := by
            rw [hany]
            exact List.any_eq_true.mpr ⟨d0, hord d0, hf0⟩
          obtain ⟨b1, a1, v1⟩ := st
          simp only at hsttrue
          subst hsttrue
          exact ⟨a1, v1, hrun⟩

/-! ### Bridge between the transliterated search and the order-parametrised one -/

theorem runDirs_cons (next : Int → Int → Int → Vis → Option CFRes)
    (d : Dir) (ds : List Dir) (i j idx : Int) (vis : Vis) :
    runDirs next (d :: ds) i j idx vis =
      match (if dirCond vis d i j then
          next (dirPos d i j).1 (dirPos d i j).2 idx vis
        else some (false, idx, vis)) with
      | none => none
      | some (true, a, v) => some (true, a, v)
      | some (false, a, v) => runDirs next ds i j a v := by
  by_cases hc : dirCond vis d i j
  · simp only [runDirs, if_pos hc]
  · simp only [runDirs, if_neg hc]

theorem runDirs_nil (next : Int → Int → Int → Vis → Option CFRes)
    (i j idx : Int) (vis : Vis) :
    runDirs next [] i j idx vis = some (false, idx - 1, setCell vis i j false) :=
  rfl

/-- The transliterated `canFind` is `canFindOrd` at the source's direction
order `[up, down, left, right]`. -/
theorem canFind_eq_canonical (puzzle : List (List Char)) (searchStr : List Char) :
    ∀ (fuel : Nat) (i j idx : Int) (vis : Vis),
      canFind puzzle searchStr fuel i j idx vis =
        canFindOrd puzzle searchStr [Dir.up, Dir.down, Dir.left, Dir.right]
          fuel i j idx vis := by
  intro fuel
  induction fuel with
  | zero => intro i j idx vis; rfl
  | succ n ih =>
    intro i j idx vis
    simp only [canFind, canFindOrd, runDirs_cons, runDirs_nil, dirPos, ih]

theorem existsLoop_eq_ord (puzzle : List (List Char)) (searchStr : List Char)
    (fuel : Nat) :
    ∀ (cells : List (Int × Int)) (idx : Int) (vis : Vis),
      existsLoop puzzle searchStr fuel cells idx vis =
        existsLoopOrd puzzle searchStr [Dir.up, Dir.down, Dir.left, Dir.right]
          fuel cells idx vis := by
  intro cells
  induction cells with
  | nil => intro idx vis; rfl
  | cons c cs ih =>
    intro idx vis
    obtain ⟨i, j⟩ := c
    simp only [existsLoop, existsLoopOrd, canFind_eq_canonical, ih]

/-! ### Start cell lemmas -/

theorem jsCell_natCast (xss : List (List α)) (n m : Nat) :
    jsCell xss (n : Int) (m : Int) =
      match xss[n]? with
      | none => none
      | some row => row[m]? := by
  unfold jsCell jsRow
  simp [show ¬ (n : Int) < 0 by omega, show ¬ (m : Int) < 0 by omega]

theorem startCells_cell {puzzle : List (List Char)} {c : Int × Int}
    (h : c ∈ startCells puzzle) : ∃ ch, jsCell puzzle c.1 c.2 = some ch := by
  unfold startCells at h
  rcases List.mem_flatMap.mp h with ⟨⟨n, row⟩, hmem, hcell⟩
  rcases List.mem_map.mp hcell with ⟨m, hm, heq⟩
  have hrow : puzzle[n]? = some row := List.mem_enum_iff_getElem?.mp hmem
  have hmlt : m < row.length := List.mem_range.mp hm
  rw [← heq]
  refine ⟨row[m], ?_⟩
  rw [jsCell_natCast]
  simp only [hrow]
  exact List.getElem?_eq_getElem hmlt

theorem cell_mem_startCells {puzzle : List (List Char)} {i j : Int} {c : Char}
    (h : jsCell puzzle i j = some c) : (i, j) ∈ startCells puzzle := by
  rcases jsCell_eq_some.mp h with ⟨row, hi, hrow, hj, hcell⟩
  unfold startCells
  apply List.mem_flatMap.mpr
  refine ⟨(i.toNat, row), List.mem_enum_iff_getElem?.mpr hrow, ?_⟩
  have hpair : ((i.toNat : Int), (j.toNat : Int)) = (i, j) := by
    rw [Prod.mk.injEq]
    constructor <;> omega
  rw [← hpair]
  apply List.mem_map.mpr
  exact ⟨j.toNat, List.mem_range.mpr (List.getElem?_eq_some.mp hcell).1, rfl⟩

/-! ### Loop-level lemmas -/

theorem existsLoopOrd_allfalse (puzzle : List (List Char))
    (searchStr : List Char) (ord : List Dir) (fuel : Nat) :
    ∀ (cells : List (Int × Int)) (idx : Int) (vis : Vis),
      (∀ c ∈ cells, canFindOrd puzzle searchStr ord fuel c.1 c.2 idx vis =
        some (false, idx, vis)) →
      existsLoopOrd puzzle searchStr ord fuel cells idx vis =
        some (false, idx, vis) := by
  intro cells
  induction cells with
  | nil => intro idx vis _; rfl
  | cons c cs ih =>
    intro idx vis hall
    obtain ⟨i, j⟩ := c
    have hc := hall (i, j) (by simp)
    simp only [existsLoopOrd, hc]
    exact ih idx vis fun c hcmem => hall c (by simp [hcmem])

theorem existsLoopOrd_cases (puzzle : List (List Char))
    (searchStr : List Char) (ord : List Dir) (fuel : Nat) :
    ∀ (cells : List (Int × Int)) (idx0 : Int) (vis0 : Vis) (r : Bool)
      (idx2 : Int) (vis2 : Vis),
      (∀ c ∈ cells, ∀ a v,
        canFindOrd puzzle searchStr ord fuel c.1 c.2 idx0 vis0 =
          some (false, a, v) → a = idx0 ∧ v = vis0) →
      existsLoopOrd puzzle searchStr ord fuel cells idx0 vis0 =
        some (r, idx2, vis2) →
      (r = false ∧ idx2 = idx0 ∧ vis2 = vis0) ∨
      (r = true ∧ ∃ c ∈ cells,
        canFindOrd puzzle searchStr ord fuel c.1 c.2 idx0 vis0 =
          some (true, idx2, vis2)) := by
  intro cells
  induction cells with
  | nil =>
    intro idx0 vis0 r idx2 vis2 _ h
    simp only [existsLoopOrd, Option.some.injEq, Prod.mk.injEq] at h
    exact Or.inl ⟨h.1.symm, h.2.1.symm, h.2.2.symm⟩
  | cons c cs ih =>
    intro idx0 vis0 r idx2 vis2 hres h
    obtain ⟨i, j⟩ := c
    simp only [existsLoopOrd] at h
    cases hcall : canFindOrd puzzle searchStr ord fuel i j idx0 vis0 with
    | none => simp [hcall] at h
    | some res =>
      obtain ⟨b, a, v⟩ := res
      simp only [hcall] at h
      cases b with
      | true =>
        simp only [Option.some.injEq, Prod.mk.injEq] at h
        refine Or.inr ⟨h.1.symm, (i, j), by simp, ?_⟩
        rw [hcall, h.1, h.2.1, h.2.2]
      | false =>
        obtain ⟨ha, hv⟩ := hres (i, j) (by simp) a v hcall
        replace h : existsLoopOrd puzzle searchStr ord fuel cs a v =
            some (r, idx2, vis2) := h
        rw [ha, hv] at h
        rcases ih idx0 vis0 r idx2 vis2
          (fun c hcmem => hres c (by simp [hcmem])) h with hfalse | ⟨hr, c2, hc2, hcall2⟩
        · exact Or.inl hfalse
        · exact Or.inr ⟨hr, c2, by simp [hc2], hcall2⟩

theorem existsLoopOrd_total (puzzle : List (List Char))
    (searchStr : List Char) (ord : List Dir) (fuel : Nat) :
    ∀ (cells : List (Int × Int)) (idx0 : Int) (vis0 : Vis),
      (∀ c ∈ cells, ∀ a v,
        canFindOrd puzzle searchStr ord fuel c.1 c.2 idx0 vis0 =
          some (false, a, v) → a = idx0 ∧ v = vis0) →
      (∀ c ∈ cells, ∃ res,
        canFindOrd puzzle searchStr ord fuel c.1 c.2 idx0 vis0 = some res) →
      ∃ out, existsLoopOrd puzzle searchStr ord fuel cells idx0 vis0 =
        some out := by
  intro cells
  induction cells with
  | nil => intro idx0 vis0 _ _; exact ⟨_, rfl⟩
  | cons c cs ih =>
    intro idx0 vis0 hres htot
    obtain ⟨i, j⟩ := c
    obtain ⟨⟨b, a, v⟩, hcall⟩ := htot (i, j) (by simp)
    cases b with
    | true =>
      refine ⟨(true, a, v), ?_⟩
      simp only [existsLoopOrd, hcall]
    | false =>
      obtain ⟨ha, hv⟩ := hres (i, j) (by simp) a v hcall
      rw [ha, hv] at hcall
      obtain ⟨out, hout⟩ := ih idx0 vis0
        (fun c hcmem => hres c (by simp [hcmem]))
        (fun c hcmem => htot c (by simp [hcmem]))
      refine ⟨out, ?_⟩
      simp only [existsLoopOrd, hcall]
      exact hout

theorem existsLoopOrd_findtrue (puzzle : List (List Char))
    (searchStr : List Char) (ord : List Dir) (fuel : Nat) :
    ∀ (cells : List (Int × Int)) (idx0 : Int) (vis0 : Vis),
      (∀ c ∈ cells, ∀ a v,
        canFindOrd puzzle searchStr ord fuel c.1 c.2 idx0 vis0 =
          some (false, a, v) → a = idx0 ∧ v = vis0) →
      (∀ c ∈ cells, ∃ res,
        canFindOrd puzzle searchStr ord fuel c.1 c.2 idx0 vis0 = some res) →
      (∃ c ∈ cells, ∃ a v,
        canFindOrd puzzle searchStr ord fuel c.1 c.2 idx0 vis0 =
          some (true, a, v)) →
      ∃ a v, existsLoopOrd puzzle searchStr ord fuel cells idx0 vis0 =
        some (true, a, v) := by
  intro cells
  induction cells with
  | nil =>
    intro idx0 vis0 _ _ hex
    simp at hex
  | cons c cs ih =>
    intro idx0 vis0 hres htot hex
    obtain ⟨i, j⟩ := c
    obtain ⟨⟨b, a, v⟩, hcall⟩ := htot (i, j) (by simp)
    cases b with
    | true =>
      refine ⟨a, v, ?_⟩
      simp only [existsLoopOrd, hcall]
    | false =>
      obtain ⟨ha, hv⟩ := hres (i, j) (by simp) a v hcall
      rw [ha, hv] at hcall
      have hex2 : ∃ c ∈ cs, ∃ a2 v2,
          canFindOrd puzzle searchStr ord fuel c.1 c.2 idx0 vis0 =
            some (true, a2, v2) := by
        rcases hex with ⟨c2, hc2mem, a2, v2, hcall2⟩
        rcases List.mem_cons.mp hc2mem with hceq | hcs
        · exfalso
          subst hceq
          rw [hcall] at hcall2
          simp at hcall2
        · exact ⟨c2, hcs, a2, v2, hcall2⟩
      obtain ⟨a2, v2, hout⟩ := ih idx0 vis0
        (fun c hcmem => hres c (by simp [hcmem]))
        (fun c hcmem => htot c (by simp [hcmem])) hex2
      refine ⟨a2, v2, ?_⟩
      simp only [existsLoopOrd, hcall]
      exact hout

theorem existsLoopOrd_permloop (puzzle : List (List Char))
    (searchStr : List Char) (ordA ordB : List Dir) (fuel : Nat) :
    ∀ (cells : List (Int × Int)) (idx0 : Int) (vis0 : Vis),
      (∀ c ∈ cells, ∃ bv i2 v2 i3 v3,
        canFindOrd puzzle searchStr ordA fuel c.1 c.2 idx0 vis0 =
          some (bv, i2, v2) ∧
        canFindOrd puzzle searchStr ordB fuel c.1 c.2 idx0 vis0 =
          some (bv, i3, v3)) →
      (∀ c ∈ cells, ∀ a v,
        canFindOrd puzzle searchStr ordA fuel c.1 c.2 idx0 vis0 =
          some (false, a, v) → a = idx0 ∧ v = vis0) →
      (∀ c ∈ cells, ∀ a v,
        canFindOrd puzzle searchStr ordB fuel c.1 c.2 idx0 vis0 =
          some (false, a, v) → a = idx0 ∧ v = vis0) →
      (existsLoopOrd puzzle searchStr ordA fuel cells idx0 vis0).map (·.1) =
        (existsLoopOrd puzzle searchStr ordB fuel cells idx0 vis0).map (·.1) := by
  intro cells
  induction cells with
  | nil => intro idx0 vis0 _ _ _; rfl
  | cons c cs ih =>
    intro idx0 vis0 hpc hresA hresB
    obtain ⟨i, j⟩ := c
    obtain ⟨bv, i2, v2, i3, v3, hA, hB⟩ := hpc (i, j) (by simp)
    cases bv with
    | true => simp [existsLoopOrd, hA, hB]
    | false =>
      obtain ⟨hi2, hv2⟩ := hresA (i, j) (by simp) i2 v2 hA
      obtain ⟨hi3, hv3⟩ := hresB (i, j) (by simp) i3 v3 hB
      rw [hi2, hv2] at hA
      rw [hi3, hv3] at hB
      simp only [existsLoopOrd, hA, hB]
      exact ih idx0 vis0 (fun c hcmem => hpc c (by simp [hcmem]))
        (fun c hcmem => hresA c (by simp [hcmem]))
        (fun c hcmem => hresB c (by simp [hcmem]))

/-! ### Permutation generator lemmas -/

theorem genIter_appends
    (g : List Char → List String → Option (List Char × List String)) (k : Int)
    (Hg : ∀ a o r, g a o = some r → ∃ t, r.2 = o ++ t) :
    ∀ (l : List Nat) (arr : List Char) (out : List String)
      (r : List Char × List String),
      genIter g k l arr out = some r → ∃ t, r.2 = out ++ t := by
  intro l
  induction l with
  | nil =>
    intro arr out r h
    simp only [genIter, Option.some.injEq] at h
    exact ⟨[], by rw [← h]; simp⟩
  | cons i is ih =>
    intro arr out r h
    have heq : genIter g k (i :: is) arr out =
        (match g (swapJS arr (k - 1).toNat (if k % 2 = 0 then i else 0)) out with
        | none => none
        | some (arr2, out2) => genIter g k is arr2 out2) := rfl
    rw [heq] at h
    cases hg : g (swapJS arr (k - 1).toNat (if k % 2 = 0 then i else 0)) out with
    | none =>
      rw [hg] at h
      simp at h
    | some st =>
      obtain ⟨arr2, out2⟩ := st
      simp only [hg] at h
      obtain ⟨t1, ht1⟩ := Hg _ _ _ hg
      obtain ⟨t2, ht2⟩ := ih arr2 out2 r h
      simp only at ht1
      exact ⟨t1 ++ t2, by rw [ht2, ht1, List.append_assoc]⟩

theorem gen_appends :
    ∀ (fuel : Nat) (k : Int) (arr : List Char) (out : List String)
      (r : List Char × List String),
      generate fuel k arr out = some r → ∃ t, r.2 = out ++ t := by
  intro fuel
  induction fuel with
  | zero =>
    intro k arr out r h
    simp [generate] at h
  | succ n ih =>
    intro k arr out r h
    have heq : generate (n + 1) k arr out =
        (if k = 1 then some (arr, out ++ [String.mk arr])
        else
          match generate n (k - 1) arr out with
          | none => none
          | some (arr1, out1) =>
            genIter (generate n (k - 1)) k (List.range (k - 1).toNat)
              arr1 out1) := rfl
    rw [heq] at h
    by_cases hk : k = 1
    · rw [if_pos hk] at h
      simp only [Option.some.injEq] at h
      exact ⟨[String.mk arr], by rw [← h]⟩
    · rw [if_neg hk] at h
      cases h1 : generate n (k - 1) arr out with
      | none =>
        rw [h1] at h
        simp at h
      | some st =>
        obtain ⟨arr1, out1⟩ := st
        simp only [h1] at h
        obtain ⟨t1, ht1⟩ := ih (k - 1) arr out (arr1, out1) h1
        obtain ⟨t2, ht2⟩ := genIter_appends (generate n (k - 1)) k
          (fun a o r2 hr2 => ih (k - 1) a o r2 hr2) _ arr1 out1 r h
        simp only at ht1
        exact ⟨t1 ++ t2, by rw [ht2, ht1, List.append_assoc]⟩

theorem gen_first :
    ∀ (fuel : Nat) (k : Int) (arr : List Char) (out : List String)
      (r : List Char × List String),
      1 ≤ k → generate fuel k arr out = some r →
      ∃ t, r.2 = out ++ String.mk arr :: t := by
  intro fuel
  induction fuel with
  | zero =>
    intro k arr out r _ h
    simp [generate] at h
  | succ n ih =>
    intro k arr out r hk1 h
    have heq : generate (n + 1) k arr out =
        (if k = 1 then some (arr, out ++ [String.mk arr])
        else
          match generate n (k - 1) arr out with
          | none => none
          | some (arr1, out1) =>
            genIter (generate n (k - 1)) k (List.range (k - 1).toNat)
              arr1 out1) := rfl
    rw [heq] at h
    by_cases hk : k = 1
    · rw [if_pos hk] at h
      simp only [Option.some.injEq] at h
      exact ⟨[], by rw [← h]⟩
    · rw [if_neg hk] at h
      cases h1 : generate n (k - 1) arr out with
      | none =>
        rw [h1] at h
        simp at h
      | some st =>
        obtain ⟨arr1, out1⟩ := st
        simp only [h1] at h
        obtain ⟨t1, ht1⟩ := ih (k - 1) arr out (arr1, out1) (by omega) h1
        obtain ⟨t2, ht2⟩ := genIter_appends (generate n (k - 1)) k
          (fun a o r2 hr2 => gen_appends n (k - 1) a o r2 hr2) _ arr1 out1 r h
        simp only at ht1
        refine ⟨t1 ++ t2, ?_⟩
        rw [ht2, ht1]
        simp

/-! ### Straight-line paths spelling a row or a column -/

theorem range_map_getElem? (l : List α) :
    (List.range l.length).map (fun m => l[m]?) = l.map some := by
  apply List.ext_getElem?
  intro q
  rw [List.getElem?_map, List.getElem?_map]
  by_cases hq : q < l.length
  · rw [List.getElem?_range hq, List.getElem?_eq_getElem hq]
    simp [List.getElem?_eq_getElem hq]
  · rw [List.getElem?_eq_none_iff.mpr (by simpa using hq),
      List.getElem?_eq_none_iff.mpr (by omega)]
    rfl

theorem row_path (grid : List (List Char)) (target : List Char) (nr : Nat)
    (hrow : grid[nr]? = some target) (hne : target ≠ []) :
    ∃ p : List (Int × Int), p ≠ [] ∧ snakePath (mkVisited grid) p ∧
      spellsAt grid p target ∧ p.length = target.length := by
  refine ⟨(List.range target.length).map fun (m : Nat) => ((nr : Int), (m : Int)),
    ?_, ⟨?_, ?_, ?_⟩, ?_, by simp⟩
  · intro hc
    rw [List.map_eq_nil_iff, List.range_eq_nil, List.length_eq_zero] at hc
    exact hne hc
  · refine List.Nodup.map ?_ (List.nodup_range target.length)
    intro a b hab
    simpa using hab
  · rw [List.chain'_map]
    cases hlen : target.length with
    | zero => simp
    | succ nn =>
      rw [List.chain'_range_succ]
      intro m hm
      unfold adjacent
      right; right; right
      simp [dirPos]
  · intro c hc
    exact truthy_mkVisited grid c.1 c.2
  · unfold spellsAt
    rw [List.map_map]
    have hcong : ∀ m ∈ List.range target.length,
        ((fun c : Int × Int => jsCell grid c.1 c.2) ∘
          fun m : Nat => ((nr : Int), (m : Int))) m = target[m]? := by
      intro m _
      simp only [Function.comp_apply]
      rw [jsCell_natCast, hrow]
    rw [List.map_congr_left hcong]
    exact range_map_getElem? target

theorem col_path (grid : List (List Char)) (target : List Char) (jc : Nat)
    (hcol : colSpell grid jc target) :
    ∃ p : List (Int × Int), p ≠ [] ∧ snakePath (mkVisited grid) p ∧
      spellsAt grid p target ∧ p.length = target.length := by
  obtain ⟨hgne, hmap⟩ := hcol
  have hlen : grid.length = target.length := by
    have := congrArg List.length hmap
    simpa using this
  refine ⟨(List.range grid.length).map fun (m : Nat) => ((m : Int), (jc : Int)),
    ?_, ⟨?_, ?_, ?_⟩, ?_, by simp [hlen]⟩
  · intro hc
    rw [List.map_eq_nil_iff, List.range_eq_nil, List.length_eq_zero] at hc
    exact hgne hc
  · refine List.Nodup.map ?_ (List.nodup_range grid.length)
    intro a b hab
    simpa using hab
  · rw [List.chain'_map]
    cases hlen2 : grid.length with
    | zero => simp
    | succ nn =>
      rw [List.chain'_range_succ]
      intro m hm
      unfold adjacent
      right; left
      simp [dirPos]
  · intro c hc
    exact truthy_mkVisited grid c.1 c.2
  · unfold spellsAt
    rw [List.map_map]
    have hcong : ∀ m ∈ List.range grid.length,
        ((fun c : Int × Int => jsCell grid c.1 c.2) ∘
          fun m : Nat => ((m : Int), (jc : Int))) m = target[m]? := by
      intro m hm
      simp only [Function.comp_apply]
      have hmlt : m < grid.length := List.mem_range.mp hm
      rw [jsCell_natCast]
      have h1 : grid[m]? = some grid[m] := List.getElem?_eq_getElem hmlt
      rw [h1]
      have h2 := congrArg (fun l => l[m]?) hmap
      simp only [List.getElem?_map, h1, Option.map_some] at h2
      have hmlt2 : m < target.length := by omega
      rw [List.getElem?_eq_getElem hmlt2] at h2
      show grid[m][jc]? = target[m]?
      rw [List.getElem?_eq_getElem hmlt2]
      simpa using h2
    rw [List.map_congr_left hcong]
    have hrg : (List.range grid.length).map (fun m => target[m]?) =
        (List.range target.length).map (fun m => target[m]?) := by rw [hlen]
    rw [hrg]
    exact range_map_getElem? target

/-! ### Top-level consequences -/

theorem hord_canonical : ∀ d : Dir, d ∈ [Dir.up, Dir.down, Dir.left, Dir.right] := by
  intro d
  cases d <;> simp

theorem canFindOrd_guardfail {puzzle : List (List Char)} {searchStr : List Char}
    {ord : List Dir} (fuel : Nat) {i j idx : Int} {vis : Vis}
    (hg : guardCond puzzle searchStr i j idx = false) :
    canFindOrd puzzle searchStr ord (fuel + 1) i j idx vis =
      some (false, idx, vis) := by
  simp only [canFindOrd]
  rw [if_neg (by simp [hg])]

theorem guard_empty {puzzle : List (List Char)} {i j idx : Int} {c : Char}
    (hcell : jsCell puzzle i j = some c) :
    guardCond puzzle [] i j idx = false := by
  unfold guardCond
  have hnone : jsCharAt ([] : List Char) idx = none := by
    unfold jsCharAt
    split <;> simp
  rw [hcell, hnone]
  simp

/-- If some self-avoiding path through the fresh grid spells the whole
target, the search finds it. -/
theorem findString_true_of_path (fuel : Nat) (grid : List (List Char))
    (target : List Char) (p : List (Int × Int))
    (hfuel : totalCells grid < fuel)
    (hne : p ≠ []) (hsnake : snakePath (mkVisited grid) p)
    (hspell : spellsAt grid p target) (hplen : p.length = target.length) :
    findStringInSnakingPuzzle fuel grid target = some true := by
  have htne : target ≠ [] := by
    intro h
    subst h
    simp only [List.length_nil] at hplen
    exact hne (List.length_eq_zero.mp hplen)
  have h0len : 0 < target.length := List.length_pos.mpr htne
  obtain ⟨c0, hc0⟩ : ∃ c0, p.head? = some c0 := by
    cases p with
    | nil => exact absurd rfl hne
    | cons a t => exact ⟨a, rfl⟩
  obtain ⟨a, v, hcall⟩ := canFindOrd_complete grid target
    [Dir.up, Dir.down, Dir.left, Dir.right] hord_canonical fuel p c0.1 c0.2 0
    (mkVisited grid) (shape2_mkVisited grid) (by omega)
    (by rw [countFalse_mkVisited]; exact hfuel) hsnake
    (by rw [show ((0 : Int)).toNat = 0 from rfl, List.drop_zero]; exact hspell)
    (by rw [show ((0 : Int)).toNat = 0 from rfl]; simpa using hplen)
    (by rw [hc0])
  have hc0cell : ∃ ch, jsCell grid c0.1 c0.2 = some ch := by
    cases p with
    | nil => exact absurd rfl hne
    | cons hd tl =>
      have hhd : hd = c0 := by simpa using hc0
      subst hhd
      unfold spellsAt at hspell
      cases target with
      | nil => exact absurd rfl htne
      | cons tc ttl =>
        simp only [List.map_cons] at hspell
        injection hspell with h1 h2
        exact ⟨tc, h1⟩
  obtain ⟨ch, hch⟩ := hc0cell
  have hmem : (c0.1, c0.2) ∈ startCells grid := cell_mem_startCells hch
  have Hres : ∀ c ∈ startCells grid, ∀ a2 v2,
      canFindOrd grid target [Dir.up, Dir.down, Dir.left, Dir.right] fuel
        c.1 c.2 0 (mkVisited grid) = some (false, a2, v2) →
      a2 = 0 ∧ v2 = mkVisited grid := by
    intro c _ a2 v2 hc
    exact canFindOrd_restore grid target _ fuel _ _ _ _ _ _
      (truthy_mkVisited grid c.1 c.2) hc
  have Htot : ∀ c ∈ startCells grid, ∃ res,
      canFindOrd grid target [Dir.up, Dir.down, Dir.left, Dir.right] fuel
        c.1 c.2 0 (mkVisited grid) = some res := by
    intro c _
    exact canFindOrd_total grid target _ fuel _ _ _ _ (shape2_mkVisited grid)
      (by omega) (by exact_mod_cast h0len) (truthy_mkVisited grid c.1 c.2)
      (by rw [countFalse_mkVisited]; exact hfuel)
  obtain ⟨a2, v2, hloop⟩ := existsLoopOrd_findtrue grid target
    [Dir.up, Dir.down, Dir.left, Dir.right] fuel (startCells grid) 0
    (mkVisited grid) Hres Htot ⟨(c0.1, c0.2), hmem, a, v, hcall⟩
  unfold findStringInSnakingPuzzle findStringSt
  rw [existsLoop_eq_ord, hloop]
  rfl

/-! ### Claim theorems -/

/-- Claim C1: the claim says `getPermutations` yields exactly `n!` outputs for
every input of distinct symbols of length `n`; at the failing input `''`
(`n = 0`, where `0! = 1`) the recursion `generate(0) → generate(-1) → ...`
never reaches the base case `k === 1`, so no amount of fuel produces any
output list at all — the JS program recurses forever instead of yielding one
permutation. -/
theorem claim_C1 : ∀ fuel : Nat, (getPermutations fuel []).map List.length = none := by
  intro fuel
  unfold getPermutations
  rw [generate_nonpos fuel _ [] [] (by simp)]
  rfl

/-- Claim C2 counterexample: on the grid `['AB']` and the empty target the
source returns `false` (the guard compares a grid character with
`searchStr[0] = undefined`), not `true` as claimed. -/
theorem claim_C2_counterexample :
    findStringInSnakingPuzzle 1 [['a', 'b']] [] = some false := rfl

/-- Claim C2 (amended): for every grid, `exists` applied to the empty target
returns `false` (with any fuel at least 1; the call always completes
immediately since no guard can match). -/
theorem claim_C2 : ∀ (fuel : Nat) (grid : List (List Char)), 1 ≤ fuel →
    findStringInSnakingPuzzle fuel grid [] = some false := by
  intro fuel grid hf
  obtain ⟨m, rfl⟩ : ∃ m, fuel = m + 1 := ⟨fuel - 1, by omega⟩
  unfold findStringInSnakingPuzzle findStringSt
  rw [existsLoop_eq_ord]
  have hall : ∀ c ∈ startCells grid,
      canFindOrd grid [] [Dir.up, Dir.down, Dir.left, Dir.right] (m + 1)
        c.1 c.2 0 (mkVisited grid) = some (false, 0, mkVisited grid) := by
    intro c hcmem
    obtain ⟨ch, hch⟩ := startCells_cell hcmem
    exact canFindOrd_guardfail m (guard_empty hch)
  rw [existsLoopOrd_allfalse grid [] _ (m + 1) (startCells grid) 0
    (mkVisited grid) hall]
  rfl

theorem claim_C2_witness :
    1 ≤ 1 ∧ findStringInSnakingPuzzle 1 [['a']] [] = some false :=
  ⟨by decide, claim_C2 1 [['a']] (by decide)⟩

/-- Claim C3: the claim says `getPermutations('')` yields exactly one result,
the empty sequence; in fact the recursion never terminates on the empty
input (no fuel value suffices), so the code yields nothing. -/
theorem claim_C3 : ∀ fuel : Nat, getPermutations fuel [] = none := by
  intro fuel
  unfold getPermutations
  rw [generate_nonpos fuel _ [] [] (by simp)]

/-- Claim C4 counterexample: on the grid `['A']` with target `'A'` the search
succeeds and returns with the matched cell still marked: the final mask
`[[true]]` is not all-false, so the mask is not unwound on the early-return
success path. -/
theorem claim_C4_counterexample :
    findStringSt 3 [['a']] ['a'] = some (true, 1, [[true]]) ∧
      [[true]] ≠ mkVisited [['a']] := by
  constructor
  · rfl
  · decide

/-- Claim C4 (amended): whenever `canFindStartedFrom` is invoked on a cell
not currently marked (as every actual call is) and returns `false`, the
closure state `(index, visited)` is exactly as on entry; consequently when
`exists` returns `false` the mask is all-false again.  On the success path
the matched cells stay marked — harmless, since the mask is created afresh
on each invocation of `exists`. -/
theorem claim_C4 :
    (∀ (puzzle : List (List Char)) (searchStr : List Char) (fuel : Nat)
      (i j idx : Int) (vis : Vis) (idx2 : Int) (vis2 : Vis),
      truthyCell (jsCell vis i j) = false →
      canFind puzzle searchStr fuel i j idx vis = some (false, idx2, vis2) →
      idx2 = idx ∧ vis2 = vis) ∧
    (∀ (fuel : Nat) (grid : List (List Char)) (target : List Char)
      (idx2 : Int) (vis2 : Vis),
      findStringSt fuel grid target = some (false, idx2, vis2) →
      idx2 = 0 ∧ vis2 = mkVisited grid) := by
  constructor
  · intro puzzle searchStr fuel i j idx vis idx2 vis2 ht h
    rw [canFind_eq_canonical] at h
    exact canFindOrd_restore puzzle searchStr _ fuel _ _ _ _ _ _ ht h
  · intro fuel grid target idx2 vis2 h
    unfold findStringSt at h
    rw [existsLoop_eq_ord] at h
    have Hres : ∀ c ∈ startCells grid, ∀ a v,
        canFindOrd grid target [Dir.up, Dir.down, Dir.left, Dir.right] fuel
          c.1 c.2 0 (mkVisited grid) = some (false, a, v) →
        a = 0 ∧ v = mkVisited grid := by
      intro c _ a v hc
      exact canFindOrd_restore grid target _ fuel _ _ _ _ _ _
        (truthy_mkVisited grid c.1 c.2) hc
    rcases existsLoopOrd_cases grid target _ fuel (startCells grid) 0
      (mkVisited grid) false idx2 vis2 Hres h with ⟨-, h1, h2⟩ | ⟨hcontra, -⟩
    · exact ⟨h1, h2⟩
    · simp at hcontra

theorem claim_C4_witness : (0 : Int) = 0 ∧ [[false]] = [[false]] :=
  claim_C4.1 [['a']] ['z'] 1 0 0 0 [[false]] 0 [[false]] (by decide) (by decide)

/-- Claim C5: the number of `true` cells of the visited mask always equals
the matched-prefix length `index`: every search call that is entered with
this invariant returns a state satisfying it, and the state in which
`findStringInSnakingPuzzle` terminates satisfies it as well. -/
theorem claim_C5 :
    (∀ (puzzle : List (List Char)) (searchStr : List Char) (fuel : Nat)
      (i j idx : Int) (vis : Vis) (b : Bool) (idx2 : Int) (vis2 : Vis),
      shape2 vis = shape2 puzzle → 0 ≤ idx →
      idx < (searchStr.length : Int) →
      truthyCell (jsCell vis i j) = false → (countTrue vis : Int) = idx →
      canFind puzzle searchStr fuel i j idx vis = some (b, idx2, vis2) →
      (countTrue vis2 : Int) = idx2) ∧
    (∀ (fuel : Nat) (grid : List (List Char)) (target : List Char) (r : Bool)
      (idx2 : Int) (vis2 : Vis),
      findStringSt fuel grid target = some (r, idx2, vis2) →
      (countTrue vis2 : Int) = idx2) := by
  constructor
  · intro puzzle searchStr fuel i j idx vis b idx2 vis2 hsh h0 hlt ht hct h
    rw [canFind_eq_canonical] at h
    exact (canFindOrd_count puzzle searchStr _ fuel i j idx vis b idx2 vis2
      hsh h0 hlt ht hct h).1
  · intro fuel grid target r idx2 vis2 h
    unfold findStringSt at h
    rw [existsLoop_eq_ord] at h
    have Hres : ∀ c ∈ startCells grid, ∀ a v,
        canFindOrd grid target [Dir.up, Dir.down, Dir.left, Dir.right] fuel
          c.1 c.2 0 (mkVisited grid) = some (false, a, v) →
        a = 0 ∧ v = mkVisited grid := by
      intro c _ a v hc
      exact canFindOrd_restore grid target _ fuel _ _ _ _ _ _
        (truthy_mkVisited grid c.1 c.2) hc
    rcases existsLoopOrd_cases grid target _ fuel (startCells grid) 0
      (mkVisited grid) r idx2 vis2 Hres h with ⟨-, h1, h2⟩ | ⟨-, c, hcmem, hcall⟩
    · rw [h1, h2, countTrue_mkVisited]
      rfl
    · by_cases hT : target = []
      · subst hT
        obtain ⟨ch, hch⟩ := startCells_cell hcmem
        cases fuel with
        | zero => simp [canFindOrd] at hcall
        | succ m =>
          rw [canFindOrd_guardfail m (guard_empty hch)] at hcall
          simp at hcall
      · have h0 : 0 < target.length := List.length_pos.mpr hT
        exact (canFindOrd_count grid target _ fuel c.1 c.2 0 (mkVisited grid)
          true idx2 vis2 (shape2_mkVisited grid) (by omega)
          (by exact_mod_cast h0) (truthy_mkVisited grid c.1 c.2)
          (by rw [countTrue_mkVisited]; rfl) hcall).1

theorem claim_C5_witness : (countTrue [[true]] : Int) = 1 :=
  claim_C5.2 3 [['a']] ['a'] true 1 [[true]] (by decide)

/-- Claim C6: the claim says every call of both functions runs to
completion; `getPermutations('')` does not — the inner recursion descends
through `k = 0, -1, -2, ...` forever, so the computation completes under no
fuel bound.  (`findStringInSnakingPuzzle` itself always completes, but the
conjunction the claim makes is already false at this input.) -/
theorem claim_C6 : ∀ fuel : Nat, (getPermutations fuel []).isSome = false := by
  intro fuel
  unfold getPermutations
  rw [generate_nonpos fuel _ [] [] (by simp)]
  rfl

/-- Claim C7: the boolean result of the search does not depend on the order
in which the four directions are tried: any reordering of
`[up, down, left, right]`, run with enough fuel for every attempt to
complete, returns the same boolean as the source's order. -/
theorem claim_C7 : ∀ (ord : List Dir) (fuel : Nat) (grid : List (List Char))
    (target : List Char),
    ord.Perm [Dir.up, Dir.down, Dir.left, Dir.right] →
    totalCells grid < fuel →
    findStringOrd ord fuel grid target =
      findStringInSnakingPuzzle fuel grid target := by
  intro ord fuel grid target hperm hfuel
  unfold findStringOrd findStringInSnakingPuzzle findStringSt
  rw [existsLoop_eq_ord]
  by_cases hT : target = []
  · subst hT
    obtain ⟨m, rfl⟩ : ∃ m, fuel = m + 1 := ⟨fuel - 1, by omega⟩
    have hallA : ∀ c ∈ startCells grid,
        canFindOrd grid [] ord (m + 1) c.1 c.2 0 (mkVisited grid) =
          some (false, 0, mkVisited grid) := by
      intro c hcmem
      obtain ⟨ch, hch⟩ := startCells_cell hcmem
      exact canFindOrd_guardfail m (guard_empty hch)
    have hallB : ∀ c ∈ startCells grid,
        canFindOrd grid [] [Dir.up, Dir.down, Dir.left, Dir.right] (m + 1)
          c.1 c.2 0 (mkVisited grid) = some (false, 0, mkVisited grid) := by
      intro c hcmem
      obtain ⟨ch, hch⟩ := startCells_cell hcmem
      exact canFindOrd_guardfail m (guard_empty hch)
    rw [existsLoopOrd_allfalse grid [] ord (m + 1) (startCells grid) 0
      (mkVisited grid) hallA,
      existsLoopOrd_allfalse grid [] _ (m + 1) (startCells grid) 0
      (mkVisited grid) hallB]
  · have h0 : 0 < target.length := List.length_pos.mpr hT
    apply existsLoopOrd_permloop
    · intro c _
      exact canFindOrd_perm grid target fuel ord _ c.1 c.2 0 (mkVisited grid)
        hperm (shape2_mkVisited grid) (by omega) (by exact_mod_cast h0)
        (truthy_mkVisited grid c.1 c.2)
        (by rw [countFalse_mkVisited]; exact hfuel)
    · intro c _ a v hc
      exact canFindOrd_restore grid target _ fuel _ _ _ _ _ _
        (truthy_mkVisited grid c.1 c.2) hc
    · intro c _ a v hc
      exact canFindOrd_restore grid target _ fuel _ _ _ _ _ _
        (truthy_mkVisited grid c.1 c.2) hc

theorem claim_C7_witness :
    findStringOrd [Dir.right, Dir.left, Dir.down, Dir.up] 3 [['a']] ['a'] =
      findStringInSnakingPuzzle 3 [['a']] ['a'] :=
  claim_C7 [Dir.right, Dir.left, Dir.down, Dir.up] 3 [['a']] ['a']
    (by decide) (by decide)

/-- Claim C8 counterexample: in the grid `['']` (one empty row) the empty
string is a full row, yet `exists` returns `false` — the universal claim
over all grids and all full-row targets fails for empty rows. -/
theorem claim_C8_counterexample :
    ([[]] : List (List Char))[0]? = some ([] : List Char) ∧
      findStringInSnakingPuzzle 1 [[]] [] = some false := ⟨rfl, rfl⟩

/-- Claim C8 (amended): for every grid and every nonempty target equal to a
full row, and every target equal to a full column (defined when the grid has
at least one row and every row reaches past the column index), `exists`
returns `true` (with enough fuel). -/
theorem claim_C8 : ∀ (fuel : Nat) (grid : List (List Char))
    (target : List Char),
    totalCells grid < fuel →
    ((∃ nr : Nat, grid[nr]? = some target ∧ target ≠ []) ∨
      ∃ jc : Nat, colSpell grid jc target) →
    findStringInSnakingPuzzle fuel grid target = some true := by
  intro fuel grid target hfuel hcase
  rcases hcase with ⟨nr, hrow, hne⟩ | ⟨jc, hcol⟩
  · obtain ⟨p, hne2, hsnake, hspell, hplen⟩ := row_path grid target nr hrow hne
    exact findString_true_of_path fuel grid target p hfuel hne2 hsnake hspell hplen
  · obtain ⟨p, hne2, hsnake, hspell, hplen⟩ := col_path grid target jc hcol
    exact findString_true_of_path fuel grid target p hfuel hne2 hsnake hspell hplen

theorem claim_C8_witness :
    totalCells [['a', 'b']] < 3 ∧
      findStringInSnakingPuzzle 3 [['a', 'b']] ['a', 'b'] = some true :=
  ⟨by decide, claim_C8 3 [['a', 'b']] ['a', 'b'] (by decide)
    (Or.inl ⟨0, rfl, by decide⟩)⟩

/-- Claim C9: if the target contains a symbol that occurs nowhere in the
grid, `exists` returns `false` (never any other result) — malformed targets
are handled by an ordinary `false`, not an error. -/
theorem claim_C9 : ∀ (fuel : Nat) (grid : List (List Char))
    (target : List Char) (c0 : Char) (b : Bool),
    c0 ∈ target → c0 ∉ grid.flatten →
    findStringInSnakingPuzzle fuel grid target = some b → b = false := by
  intro fuel grid target c0 b hc0 hnot h
  cases b with
  | false => rfl
  | true =>
    exfalso
    unfold findStringInSnakingPuzzle at h
    cases hst : findStringSt fuel grid target with
    | none =>
      rw [hst] at h
      simp at h
    | some st =>
      rw [hst] at h
      replace h : st.1 = true := by simpa using h
      obtain ⟨bb, idx2, vis2⟩ := st
      replace h : bb = true := h
      subst h
      unfold findStringSt at hst
      rw [existsLoop_eq_ord] at hst
      have Hres : ∀ c ∈ startCells grid, ∀ a v,
          canFindOrd grid target [Dir.up, Dir.down, Dir.left, Dir.right] fuel
            c.1 c.2 0 (mkVisited grid) = some (false, a, v) →
          a = 0 ∧ v = mkVisited grid := by
        intro c _ a v hc
        exact canFindOrd_restore grid target _ fuel _ _ _ _ _ _
          (truthy_mkVisited grid c.1 c.2) hc
      rcases existsLoopOrd_cases grid target _ fuel (startCells grid) 0
        (mkVisited grid) true idx2 vis2 Hres hst with
        ⟨hcontra, -, -⟩ | ⟨-, c, hcmem, hcall⟩
      · simp at hcontra
      · have htne : target ≠ [] := by
          intro hx
          subst hx
          simp at hc0
        have h0 : 0 < target.length := List.length_pos.mpr htne
        have hsound := canFindOrd_sound grid target _ fuel c.1 c.2 0
          (mkVisited grid) idx2 vis2 (by omega) (by exact_mod_cast h0) hcall
        apply hnot
        apply hsound
        rw [show ((0 : Int)).toNat = 0 from rfl, List.drop_zero]
        exact hc0

theorem claim_C9_witness :
    ('z' ∈ ['z']) ∧ ('z' ∉ ([['a']] : List (List Char)).flatten) ∧
      false = false :=
  ⟨by decide, by decide,
    claim_C9 1 [['a']] ['z'] 'z' false (by decide) (by decide) (by decide)⟩

/-- Claim C10: for every nonempty input of distinct symbols, whenever
`getPermutations` completes, the first string it yields is the input itself
(the first push happens before any swap, at the bottom of the
`generate(k-1)`-first recursion). -/
theorem claim_C10 : ∀ (fuel : Nat) (chars : List Char) (out : List String),
    chars ≠ [] → chars.Nodup → getPermutations fuel chars = some out →
    out.head? = some (String.mk chars) := by
  intro fuel chars out hne hnd h
  unfold getPermutations at h
  cases hg : generate fuel (chars.length : Int) chars [] with
  | none =>
    rw [hg] at h
    simp at h
  | some st =>
    obtain ⟨arr2, output⟩ := st
    rw [hg] at h
    simp only [Option.some.injEq] at h
    obtain ⟨t, ht⟩ := gen_first fuel (chars.length : Int) chars [] (arr2, output)
      (by
        have := List.length_pos.mpr hne
        omega) hg
    simp only at ht
    rw [← h, ht]
    simp

theorem claim_C10_witness :
    (['a', 'b'] : List Char) ≠ [] ∧ (['a', 'b'] : List Char).Nodup ∧
      (["ab", "ba"] : List String).head? = some (String.mk ['a', 'b']) :=
  ⟨by decide, by decide,
    claim_C10 5 ['a', 'b'] ["ab", "ba"] (by decide) (by decide) (by rfl)⟩
